import Mathlib

/-! The two-tier LCP store of `sdsl/lcp_support_tree2.hpp`.

A shallow embedding of

* `construct_first_child_and_lf_lcp` (lines 238-353): the reduction that turns a raw LCP
  stream and its aligned run-symbol (BWT) stream into the small-tier byte stream and the
  big-tier array;
* `_lcp_support_tree2::operator[]` (lines 156-177): random access through the host tree;
* `serialize`, `load`, `operator==`, `operator!=` and `empty` of the store (lines 134-222).

Machine integers are natural numbers; where the source's unsigned arithmetic can wrap
(`offset`, the final subtraction, the 8-bit small-tier entries, the width-limited big tier)
the reduction modulo a power of two is written out.
-/

namespace sdsl

/-! ## Collaborators that are not part of the sources -/

/-- Modelled from the spec: the class `sorted_multi_stack_support`
(`sdsl/sorted_multi_stack_support.hpp`) is not among the sources. Spec sections 3, 4.1 and 9
describe it as a stack that "holds pending values with run-length multiplicities", realised
as "an explicit run-length stack of (value, count) pairs", exposing `push(value)`, `top()`,
`pop()` (true iff this pop removed the last remaining copy of that value), `empty()` and
`size()`. The head of `runs` is the top of the stack. -/
structure sorted_multi_stack_support where
  runs : List (Nat × Nat)
deriving DecidableEq, Repr

namespace sorted_multi_stack_support

/-- Modelled from the spec: `empty()` of the absent stack class, true iff nothing is pending. -/
def empty (s : sorted_multi_stack_support) : Bool :=
  s.runs.isEmpty

/-- Modelled from the spec: `top()` of the absent stack class, the value of the topmost run
(only called on a non-empty stack). -/
def top (s : sorted_multi_stack_support) : Nat :=
  match s.runs with
  | [] => 0
  | (v, _) :: _ => v

/-- Modelled from the spec: `size()` of the absent stack class, the number of pending values,
every copy counted (the stack depth that indexes the per-depth anchor flags). The source
addresses one flag per copy: at every pop of the scan, also of a copy that is not the last
one, it reads `is_big_and_not_reducable[vec_stack.size() - 1]` (line 273). -/
def size (s : sorted_multi_stack_support) : Nat :=
  (s.runs.map Prod.snd).sum

/-- Modelled from the spec: `push(value)` of the absent stack class: one more copy of the top
value when `x` equals it, a new run of one copy otherwise. -/
def push (s : sorted_multi_stack_support) (x : Nat) : sorted_multi_stack_support :=
  match s.runs with
  | [] => ⟨[(x, 1)]⟩
  | (v, c) :: rest => if v = x then ⟨(v, c + 1) :: rest⟩ else ⟨(x, 1) :: (v, c) :: rest⟩

/-- Modelled from the spec: `pop()` of the absent stack class: removes one copy of the top
value; the flag is true iff the removed copy was the last remaining copy of that value. -/
def pop (s : sorted_multi_stack_support) : Bool × sorted_multi_stack_support :=
  match s.runs with
  | [] => (false, s)
  | (v, c) :: rest => if c ≤ 1 then (true, ⟨rest⟩) else (false, ⟨(v, c - 1) :: rest⟩)

end sorted_multi_stack_support

/-- Modelled from the spec: `int_vector<>` (`sdsl/int_vector.hpp`) is not among the sources;
spec section 2 calls it "the generic bit-packed integer array used for the big tier": a bit
width and the stored integers. -/
structure int_vector where
  width : Nat
  data : List Nat
deriving DecidableEq, Repr

/-- Modelled from the spec: `bits::hi` (`sdsl/bits.hpp`) is not among the sources; it enters
the embedding as a parameter `hi`. The spec uses it as a bit length ("bit width =
bitlength(max stored value)+1", "every big-tier value fits the recorded bit width"): the
property assumed of it is that every value `v` is below `2 ^ (hi v + 1)`. -/
def bit_length_like (hi : Nat → Nat) : Prop :=
  ∀ v, v < 2 ^ (hi v + 1)

/-- Modelled from the spec: the host suffix tree `t_cst` is an external collaborator; spec
section 6 gives its capability set: `size()`, `index_of` (the source's `tlcp_idx`) and `lf`
(the source's `csa.lf`). -/
structure cst_type where
  size : Nat
  tlcp_idx : Nat → Nat
  lf : Nat → Nat

/-! ## `construct_first_child_and_lf_lcp` -/

/-- Line 246: `const size_type M = 255`. -/
def M : Nat := 255

/-- The local variables of `construct_first_child_and_lf_lcp` (lines 252-264). The two output
files are the lists of records written so far. The last three fields are ghost state: the
algorithm never reads them. -/
structure cstate where
  vec_stack : sorted_multi_stack_support
  is_big_and_not_reducable : List Bool
  is_one_big_and_not_reducable : Bool
  sml_lcp_out : List Nat
  big_lcp_out : List Nat
  fc_cnt : Nat
  fc_cnt_big : Nat
  fc_cnt_big2 : Nat
  y : Nat
  max_lcp : Nat
  last_bwti : Nat
  /-- ghost: the values `y` classified so far, one per emitted small-tier entry, in order -/
  classified : List Nat
  /-- ghost: number of `vec_stack.push` calls so far -/
  pushes : Nat
  /-- ghost: number of `vec_stack.pop` calls so far -/
  pops : Nat
deriving DecidableEq, Repr

/-- Lines 252-264: the state before the scan; `n` is `lcp_buf.size()`. The source leaves `y`
uninitialised; it is assigned before every read, and the embedding starts it at 0. -/
def init (n : Nat) : cstate where
  vec_stack := ⟨[]⟩
  is_big_and_not_reducable := List.replicate n false
  is_one_big_and_not_reducable := false
  sml_lcp_out := []
  big_lcp_out := []
  fc_cnt := 0
  fc_cnt_big := 0
  fc_cnt_big2 := 0
  y := 0
  max_lcp := 0
  last_bwti := 0
  classified := []
  pushes := 0
  pops := 0

/-- Lines 276-297 and, verbatim, 318-339: classify the value `st.y` whose last copy has just
been popped; `flag` is the condition of the inner `if` (the only place where the two copies of
the block differ). `sml_lcp_out` is an 8-bit buffer, so `push_back(val)` keeps `val mod 2^8`. -/
def classify (flag : Bool) (st : cstate) : cstate :=
  if st.y > M - 2 then
    if flag then
      { st with
        big_lcp_out := st.big_lcp_out ++ [st.y]
        fc_cnt_big := st.fc_cnt_big + 1
        max_lcp := if st.y > st.max_lcp then st.y else st.max_lcp
        sml_lcp_out := st.sml_lcp_out ++ [M % 2 ^ 8]
        fc_cnt := st.fc_cnt + 1
        classified := st.classified ++ [st.y] }
    else
      { st with
        fc_cnt_big2 := st.fc_cnt_big2 + 1
        sml_lcp_out := st.sml_lcp_out ++ [(M - 1) % 2 ^ 8]
        fc_cnt := st.fc_cnt + 1
        classified := st.classified ++ [st.y] }
  else
    { st with
      sml_lcp_out := st.sml_lcp_out ++ [st.y % 2 ^ 8]
      fc_cnt := st.fc_cnt + 1
      classified := st.classified ++ [st.y] }

/-- Lines 272-299: one iteration of the `while` loop inside the scan. -/
def scan_pop (st : cstate) : cstate :=
  let y := st.vec_stack.top
  let one := st.is_one_big_and_not_reducable ||
    st.is_big_and_not_reducable.getD (st.vec_stack.size - 1) false
  let r := st.vec_stack.pop
  let st1 := { st with
    y := y, is_one_big_and_not_reducable := one, vec_stack := r.2, pops := st.pops + 1 }
  if r.1 then
    { classify one st1 with is_one_big_and_not_reducable := false }
  else st1

/-- Lines 270-300: `while (!vec_stack.empty() and x < vec_stack.top())`. Every iteration pops
one copy, so the loop is run with `vec_stack.size()` units of fuel. -/
def scan_pops (x : Nat) : Nat → cstate → cstate
  | 0, st => st
  | fuel + 1, st =>
    if !st.vec_stack.empty && decide (x < st.vec_stack.top) then
      scan_pops x fuel (scan_pop st)
    else st

/-- Line 301: the condition under which the slot of the value about to be pushed is set. -/
def push_flag (t_dens i x last_bwti bwt_i : Nat) : Bool :=
  decide (x > M - 2) && (decide (0 = i) || decide (last_bwti ≠ bwt_i) || decide (x % t_dens = 0))

/-- Lines 267-310: the body of the `for` loop at position `i` with `x = lcp_buf[i]`. A read of
`bwt_buf` past its end yields 0. -/
def scan_body (t_dens : Nat) (bwt_buf : List Nat) (i x : Nat) (st : cstate) : cstate :=
  let st1 := { st with is_one_big_and_not_reducable := false }
  let st2 := scan_pops x st1.vec_stack.size st1
  let flag := push_flag t_dens i x st2.last_bwti (bwt_buf.getD i 0)
  { st2 with
    is_big_and_not_reducable := st2.is_big_and_not_reducable.set st2.vec_stack.size flag
    vec_stack := st2.vec_stack.push x
    last_bwti := bwt_buf.getD i 0
    pushes := st2.pushes + 1 }

/-- Lines 265-311: `for (size_type i = 0, x; i < n; ++i)`, started at position `i` with the
values `lcp_buf[i..n)` still to be read. -/
def scan (t_dens : Nat) (bwt_buf : List Nat) : Nat → List Nat → cstate → cstate
  | _, [], st => st
  | i, x :: rest, st => scan t_dens bwt_buf (i + 1) rest (scan_body t_dens bwt_buf i x st)

/-- Lines 315-340: one iteration of the final `while` loop. -/
def flush_pop (st : cstate) : cstate :=
  let y := st.vec_stack.top
  let r := st.vec_stack.pop
  let st1 := { st with y := y, vec_stack := r.2, pops := st.pops + 1 }
  if r.1 then
    classify (st1.is_big_and_not_reducable.getD st1.vec_stack.size false) st1
  else st1

/-- Lines 313-341: `while (!vec_stack.empty())`, run with `vec_stack.size()` units of fuel. -/
def flush : Nat → cstate → cstate
  | 0, st => st
  | fuel + 1, st => if !st.vec_stack.empty then flush fuel (flush_pop st) else st

/-- Lines 245-341: the state when the final flush has ended. -/
def construct_state (t_dens : Nat) (lcp_buf bwt_buf : List Nat) : cstate :=
  let st := scan t_dens bwt_buf 0 lcp_buf (init lcp_buf.length)
  flush st.vec_stack.size st

/-- Lines 348-352: read `k` records back from the big-tier file into a `width`-bit array; `y`
keeps its value when a read finds no record. -/
def read_big (width : Nat) : Nat → List Nat → Nat → List Nat
  | 0, _, _ => []
  | k + 1, [], y => (y % 2 ^ width) :: read_big width k [] y
  | k + 1, r :: rs, _ => (r % 2 ^ width) :: read_big width k rs r

/-- Lines 343-352: size the big tier and fill it. `hi` stands for `bits::hi` (`sdsl/bits.hpp`),
which is not among the sources (the spec calls `bits::hi(max_lcp) + 1` "bitlength(max stored
value)+1"). -/
def fill_big (hi : Nat → Nat) (st : cstate) : int_vector where
  width := hi st.max_lcp + 1
  data := read_big (hi st.max_lcp + 1) st.fc_cnt_big st.big_lcp_out st.y

/-- Lines 238-353: the small-tier byte stream left in `small_lcp_file` and the array
`big_lcp`. -/
def construct_first_child_and_lf_lcp (hi : Nat → Nat) (t_dens : Nat)
    (lcp_buf bwt_buf : List Nat) : List Nat × int_vector :=
  let st := construct_state t_dens lcp_buf bwt_buf
  (st.sml_lcp_out, fill_big hi st)

/-! ## `_lcp_support_tree2` -/

/-- Lines 80-83: the members of the store. The small tier (`wt_huff`, not among the sources,
spec section 4.2: "random access + rank of value 255 up to an index") is the byte sequence it
was built from; `m_cst` is the nullable pointer to the host. -/
structure _lcp_support_tree2 where
  m_cst : Option cst_type
  m_small_lcp : List Nat
  m_big_lcp : int_vector

/-- Modelled from the spec: `wt_huff::rank(idx, c)`, the number of entries equal to `c` strictly
before `idx`. -/
def rank (small : List Nat) (idx c : Nat) : Nat :=
  (small.take idx).count c

/-- Lines 100-117: the constructor, binding the freshly built tiers to the host. -/
def _lcp_support_tree2.build (hi : Nat → Nat) (t_dens : Nat) (lcp_buf bwt_buf : List Nat)
    (cst : Option cst_type) : _lcp_support_tree2 where
  m_cst := cst
  m_small_lcp := (construct_first_child_and_lf_lcp hi t_dens lcp_buf bwt_buf).1
  m_big_lcp := (construct_first_child_and_lf_lcp hi t_dens lcp_buf bwt_buf).2

/-- What a call of `operator[]` has done after a bounded number of loop iterations. -/
inductive access_result where
  /-- the call returned `value` after `hops` LF steps -/
  | returned (value hops : Nat)
  /-- the call read outside a tier or through a null host: the source defines no behaviour -/
  | undefined
  /-- the call has not returned yet: it is about to start another iteration at `start:` -/
  | running
deriving DecidableEq, Repr

/-- Lines 160-176: the loop of `operator[]` (label `start:` and `goto start`), run for at most
`fuel` iterations from position `i` with `offset` hops taken so far. `val` is a `uint8_t`,
`offset` and the returned difference are 64-bit unsigned. -/
def access_loop (cst : cst_type) (small : List Nat) (big : int_vector) :
    Nat → Nat → Nat → access_result
  | 0, _, _ => access_result.running
  | fuel + 1, i, offset =>
    let idx := cst.tlcp_idx i
    match small[idx]? with
    | none => access_result.undefined
    | some e =>
      let val := e % 2 ^ 8
      if val < 254 then access_result.returned val offset
      else if val = 254 then
        access_loop cst small big fuel (cst.lf i) ((offset + 1) % 2 ^ 64)
      else
        match big.data[rank small idx 255]? with
        | none => access_result.undefined
        | some b => access_result.returned ((b + 2 ^ 64 - offset) % 2 ^ 64) offset

/-- Lines 156-177: `operator[](i)`, observed after at most `fuel` iterations. -/
def _lcp_support_tree2.get (s : _lcp_support_tree2) (fuel i : Nat) : access_result :=
  match s.m_cst with
  | none => access_result.undefined
  | some cst => access_loop cst s.m_small_lcp s.m_big_lcp fuel i 0


/-- Lines 134-137: `empty()`, the emptiness of the small tier. -/
def _lcp_support_tree2.empty (s : _lcp_support_tree2) : Bool :=
  s.m_small_lcp.isEmpty

/-- Lines 213-216: `operator==`, the conjunction of the two tiers' own equality tests (for
the tiers the structural equality of their contents); `m_cst` is not compared. -/
def _lcp_support_tree2.eq (a b : _lcp_support_tree2) : Bool :=
  (a.m_small_lcp == b.m_small_lcp) && (a.m_big_lcp == b.m_big_lcp)

/-- Lines 219-222: `operator!=`. -/
def _lcp_support_tree2.ne (a b : _lcp_support_tree2) : Bool :=
  !(a.eq b)

/-- Modelled from the spec: the `serialize` and `load` members of the two tiers (`wt_huff`,
`int_vector`) are not among the sources. `write` gives the bytes of the block a tier writes;
`read` takes one block off the front of a stream and gives the tier read and the rest of the
stream, or fails on a truncated or corrupt stream. -/
structure tier_codec (α : Type) where
  write : α → List Nat
  read : List Nat → Option (α × List Nat)

/-- Modelled from the spec: section 4.4, "each self-describing its byte length": reading a
stream that starts with the block written for `a` gives back `a` and exactly the bytes after
the block. -/
def self_describing {α : Type} (c : tier_codec α) : Prop :=
  ∀ (a : α) (rest : List Nat), c.read (c.write a ++ rest) = some (a, rest)

/-- Lines 180-188: `serialize`: the small tier, then the big tier, appended to `out`; the
second component is `written_bytes`. The structure-tree bookkeeping does not touch the
stream. -/
def _lcp_support_tree2.serialize (cs : tier_codec (List Nat)) (cb : tier_codec int_vector)
    (s : _lcp_support_tree2) (out : List Nat) : List Nat × Nat :=
  let out1 := out ++ cs.write s.m_small_lcp
  let written1 := 0 + (cs.write s.m_small_lcp).length
  let out2 := out1 ++ cb.write s.m_big_lcp
  let written2 := written1 + (cb.write s.m_big_lcp).length
  (out2, written2)

/-- Lines 191-196: `load`: the small tier, then the big tier, then the host pointer; the
result is the loaded store and the unread rest of the stream, `none` when a tier fails to
load. -/
def _lcp_support_tree2.load (cs : tier_codec (List Nat)) (cb : tier_codec int_vector)
    (inp : List Nat) (cst : Option cst_type) : Option (_lcp_support_tree2 × List Nat) :=
  match cs.read inp with
  | none => none
  | some (small, in1) =>
    match cb.read in1 with
    | none => none
    | some (big, in2) => some (⟨cst, small, big⟩, in2)

/-- A length-prefixed block for the small tier: the number of entries, then the entries. -/
def small_codec : tier_codec (List Nat) where
  write := fun l => l.length :: l
  read := fun inp =>
    match inp with
    | [] => none
    | n :: rest => if n ≤ rest.length then some (rest.take n, rest.drop n) else none

/-- A length-prefixed block for the big tier: the width, the number of entries, then the
entries. -/
def big_codec : tier_codec int_vector where
  write := fun v => v.width :: v.data.length :: v.data
  read := fun inp =>
    match inp with
    | w :: n :: rest => if n ≤ rest.length then some (⟨w, rest.take n⟩, rest.drop n) else none
    | _ => none

/-! ## Invariants of the reduction: definitions -/

/-- How a small-tier entry `v` relates to the value `y` it was emitted for. -/
def entry_ok (y v : Nat) : Prop :=
  if y ≤ 253 then v = y else v = 254 ∨ v = 255

instance (y v : Nat) : Decidable (entry_ok y v) := by
  unfold entry_ok; infer_instance

/-- The classified values whose small-tier entry is the marker 255, in emission order. -/
def big_of : List Nat → List Nat → List Nat
  | y :: ys, v :: vs => if v = 255 then y :: big_of ys vs else big_of ys vs
  | _, _ => []

/-- The facts about the emitted streams that hold throughout the reduction. -/
structure stream_inv (st : cstate) : Prop where
  cnt : st.sml_lcp_out.length = st.fc_cnt
  cnt_big : st.big_lcp_out.length = st.fc_cnt_big
  entries : List.Forall₂ entry_ok st.classified st.sml_lcp_out
  big : st.big_lcp_out = big_of st.classified st.sml_lcp_out
  max : st.max_lcp = st.big_lcp_out.foldl max 0

/-- Every run on the stack holds at least one copy. -/
def sorted_multi_stack_support.wf (s : sorted_multi_stack_support) : Prop :=
  ∀ p ∈ s.runs, 1 ≤ p.2

/-- The facts about the stack and the event counters that hold throughout the reduction. -/
structure stack_inv (st : cstate) : Prop where
  wf : st.vec_stack.wf
  bound : st.fc_cnt + st.vec_stack.runs.length ≤ st.pushes
  balance : st.pops + st.vec_stack.size = st.pushes

/-- Every value pending on the stack and every value classified so far satisfies `P`. -/
structure vals_inv (P : Nat → Prop) (st : cstate) : Prop where
  stack : ∀ p ∈ st.vec_stack.runs, P p.1
  out : ∀ y ∈ st.classified, P y

/-- The copies listed by a run-length list, from the bottom of the stack to its top. -/
def vals_of : List (Nat × Nat) → List Nat
  | [] => []
  | (v, c) :: rest => vals_of rest ++ List.replicate c v

/-- The pending values from the bottom of the stack to its top, every copy listed: the entry
at index `k` is the value at stack depth `k`. -/
def sorted_multi_stack_support.vals (s : sorted_multi_stack_support) : List Nat :=
  vals_of s.runs

/-- The runs hold distinct values, strictly decreasing from the top of the stack downwards. -/
def sorted_multi_stack_support.sorted (s : sorted_multi_stack_support) : Prop :=
  List.Pairwise (fun p q => q.1 < p.1) s.runs

/-- The state in which the `for` loop of lines 265-311 reaches position `i`. -/
def state_at (t_dens : Nat) (lcp_buf bwt_buf : List Nat) (i : Nat) : cstate :=
  scan t_dens bwt_buf 0 (lcp_buf.take i) (init lcp_buf.length)

/-- Lines 268-300: the state in which the inner `while` loop for the value `x` has ended,
just before the flag of line 301 is computed and `x` is pushed. -/
def after_pops (x : Nat) (st : cstate) : cstate :=
  scan_pops x st.vec_stack.size { st with is_one_big_and_not_reducable := false }

/-- The entry `v` emitted for the classified value `y` respects the sampling rule: a large
value that is a multiple of the density `d` has the marker 255. -/
def sample_ok (d y v : Nat) : Prop :=
  254 ≤ y → y % d = 0 → v = 255

/-- The sampling rule holds for everything emitted so far, and every pending copy of a large
value that is a multiple of the density `d` has its anchor flag set. -/
structure sample_inv (d : Nat) (st : cstate) : Prop where
  flags : ∀ k v, st.vec_stack.vals[k]? = some v → 254 ≤ v → v % d = 0 →
    st.is_big_and_not_reducable.getD k false = true
  out : List.Forall₂ (sample_ok d) st.classified st.sml_lcp_out

/-- The state with the remembered run symbol `last_bwti` blanked out. -/
def forget_bwt (st : cstate) : cstate :=
  { st with last_bwti := 0 }

/-- The number of positions, from position `i` on, whose value equals the top of the stack
at the moment it is pushed (the push then adds a copy to the topmost run). -/
def dup_pushes (t_dens : Nat) (bwt_buf : List Nat) : Nat → List Nat → cstate → Nat
  | _, [], _ => 0
  | i, x :: rest, st =>
    (if !(after_pops x st).vec_stack.empty && decide ((after_pops x st).vec_stack.top = x)
      then 1 else 0)
      + dup_pushes t_dens bwt_buf (i + 1) rest (scan_body t_dens bwt_buf i x st)

/-! ## Concrete hosts and stores used to instantiate the theorems -/

/-- A host whose index mapping is the identity and whose LF step moves one position up. -/
def demo_host : cst_type where
  size := 2
  tlcp_idx := fun i => i
  lf := fun i => i + 1

/-- A store whose position 0 is an unanchored large value, one LF hop away from the anchor
300 at position 1. -/
def demo_store : _lcp_support_tree2 where
  m_cst := some demo_host
  m_small_lcp := [254, 255]
  m_big_lcp := ⟨9, [300]⟩

/-- A store whose position 0 holds the literal value 7. -/
def literal_store : _lcp_support_tree2 where
  m_cst := some demo_host
  m_small_lcp := [7, 255]
  m_big_lcp := ⟨9, [300]⟩

/-- A host that maps every position to entry 0 and whose LF step stays where it is. -/
def looping_host : cst_type where
  size := 1
  tlcp_idx := fun _ => 0
  lf := fun i => i

/-- A store whose only entry is the marker 254, bound to `looping_host`: the LF-chain from
position 0 never leaves the marker 254. -/
def looping_store : _lcp_support_tree2 where
  m_cst := some looping_host
  m_small_lcp := [254]
  m_big_lcp := ⟨1, []⟩

/-! ## Invariants of the reduction: proofs -/


theorem big_of_snoc (ys vs : List Nat) (y v : Nat) (h : ys.length = vs.length) :
    big_of (ys ++ [y]) (vs ++ [v]) = big_of ys vs ++ (if v = 255 then [y] else []) := by
  induction ys generalizing vs with
  | nil =>
    cases vs with
    | nil => by_cases hv : v = 255 <;> simp [big_of, hv]
    | cons b vs => simp at h
  | cons a ys ih =>
    cases vs with
    | nil => simp at h
    | cons b vs =>
      have h1 : ys.length = vs.length := by simpa using h
      by_cases hb : b = 255 <;> simp [big_of, hb, ih vs h1]

theorem big_of_length (ys vs : List Nat) (h : ys.length = vs.length) :
    (big_of ys vs).length = vs.count 255 := by
  induction ys generalizing vs with
  | nil =>
    cases vs with
    | nil => simp [big_of]
    | cons b vs => simp at h
  | cons a ys ih =>
    cases vs with
    | nil => simp at h
    | cons b vs =>
      have h1 : ys.length = vs.length := by simpa using h
      by_cases hb : b = 255
      · subst hb; simp [big_of, ih vs h1]
      · simp [big_of, hb, ih vs h1, List.count_cons]

theorem big_of_rank (ys vs : List Nat) (h : ys.length = vs.length) (idx : Nat)
    (hv : vs[idx]? = some 255) :
    (big_of ys vs)[rank vs idx 255]? = ys[idx]? := by
  induction ys generalizing vs idx with
  | nil =>
    cases vs with
    | nil => simp at hv
    | cons b vs => simp at h
  | cons a ys ih =>
    cases vs with
    | nil => simp at h
    | cons b vs =>
      have h1 : ys.length = vs.length := by simpa using h
      cases idx with
      | zero =>
        have hb : b = 255 := by simpa using hv
        subst hb; simp [big_of, rank]
      | succ k =>
        have hk : vs[k]? = some 255 := by simpa using hv
        have := ih vs h1 k hk
        by_cases hb : b = 255
        · subst hb; simpa [big_of, rank, List.count_cons] using this
        · have hb2 : ¬ (255 = b) := fun e => hb e.symm
          simpa [big_of, rank, hb, hb2, List.count_cons] using this

theorem stream_inv_init (n : Nat) : stream_inv (init n) := by
  constructor <;> simp [init, big_of]

theorem forall₂_snoc {R : Nat → Nat → Prop} {l₁ l₂ : List Nat} {a b : Nat}
    (h : List.Forall₂ R l₁ l₂) (hab : R a b) : List.Forall₂ R (l₁ ++ [a]) (l₂ ++ [b]) := by
  induction h with
  | nil => exact List.Forall₂.cons hab List.Forall₂.nil
  | cons h1 _ ih => exact List.Forall₂.cons h1 ih

theorem stream_inv_classify (flag : Bool) (st : cstate) (h : stream_inv st) :
    stream_inv (classify flag st) := by
  have hlen : st.classified.length = st.sml_lcp_out.length := h.entries.length_eq
  unfold classify
  by_cases hy : st.y > M - 2
  · have hy2 : ¬ st.y ≤ 253 := by simp [M] at hy; omega
    cases flag
    · simp only [hy, if_true, Bool.false_eq_true, if_false]
      refine ⟨by simp [h.cnt], h.cnt_big, forall₂_snoc h.entries ?_, ?_, h.max⟩
      · simp [entry_ok, hy2, M]
      · simp only []
        rw [big_of_snoc _ _ _ _ hlen]
        simp [M, h.big]
    · simp only [hy, if_true]
      refine ⟨by simp [h.cnt], by simp [h.cnt_big], forall₂_snoc h.entries ?_, ?_, ?_⟩
      · simp [entry_ok, hy2, M]
      · simp only []
        rw [big_of_snoc _ _ _ _ hlen]
        simp [M, h.big]
      · simp only [List.foldl_append, List.foldl_cons, List.foldl_nil, ← h.max]
        by_cases hm : st.y > st.max_lcp
        · simp [hm]; omega
        · simp [hm]; omega
  · have hy2 : st.y ≤ 253 := by simp [M] at hy; omega
    simp only [hy, if_false]
    have hmod : st.y % 2 ^ 8 = st.y := Nat.mod_eq_of_lt (by norm_num; omega)
    refine ⟨by simp [h.cnt], h.cnt_big, forall₂_snoc h.entries ?_, ?_, h.max⟩
    · simp only [entry_ok, hy2, if_true, hmod]
    · simp only []
      rw [big_of_snoc _ _ _ _ hlen, hmod]
      have : ¬ st.y = 255 := by omega
      simp [this, h.big]

theorem stream_inv_scan_pop (st : cstate) (h : stream_inv st) : stream_inv (scan_pop st) := by
  unfold scan_pop
  simp only []
  split
  · have := stream_inv_classify
      (st.is_one_big_and_not_reducable ||
        st.is_big_and_not_reducable.getD (st.vec_stack.size - 1) false)
      { st with
        y := st.vec_stack.top
        is_one_big_and_not_reducable := (st.is_one_big_and_not_reducable ||
          st.is_big_and_not_reducable.getD (st.vec_stack.size - 1) false)
        vec_stack := st.vec_stack.pop.2, pops := st.pops + 1 }
      ⟨h.cnt, h.cnt_big, h.entries, h.big, h.max⟩
    exact ⟨this.cnt, this.cnt_big, this.entries, this.big, this.max⟩
  · exact ⟨h.cnt, h.cnt_big, h.entries, h.big, h.max⟩

theorem stream_inv_scan_pops (x fuel : Nat) (st : cstate) (h : stream_inv st) :
    stream_inv (scan_pops x fuel st) := by
  induction fuel generalizing st with
  | zero => exact h
  | succ k ih =>
    unfold scan_pops
    split
    · exact ih _ (stream_inv_scan_pop st h)
    · exact h

theorem stream_inv_scan_body (d : Nat) (B : List Nat) (i x : Nat) (st : cstate)
    (h : stream_inv st) : stream_inv (scan_body d B i x st) := by
  have := stream_inv_scan_pops x st.vec_stack.size
    { st with is_one_big_and_not_reducable := false } ⟨h.cnt, h.cnt_big, h.entries, h.big, h.max⟩
  exact ⟨this.cnt, this.cnt_big, this.entries, this.big, this.max⟩

theorem stream_inv_scan (d : Nat) (B : List Nat) (i : Nat) (L : List Nat) (st : cstate)
    (h : stream_inv st) : stream_inv (scan d B i L st) := by
  induction L generalizing i st with
  | nil => exact h
  | cons x rest ih => exact ih _ _ (stream_inv_scan_body d B i x st h)

theorem stream_inv_flush_pop (st : cstate) (h : stream_inv st) : stream_inv (flush_pop st) := by
  unfold flush_pop
  simp only []
  split
  · exact stream_inv_classify _ _ ⟨h.cnt, h.cnt_big, h.entries, h.big, h.max⟩
  · exact ⟨h.cnt, h.cnt_big, h.entries, h.big, h.max⟩

theorem stream_inv_flush (fuel : Nat) (st : cstate) (h : stream_inv st) :
    stream_inv (flush fuel st) := by
  induction fuel generalizing st with
  | zero => exact h
  | succ k ih =>
    unfold flush
    split
    · exact ih _ (stream_inv_flush_pop st h)
    · exact h

theorem stream_inv_construct (d : Nat) (L B : List Nat) :
    stream_inv (construct_state d L B) :=
  stream_inv_flush _ _ (stream_inv_scan d B 0 L _ (stream_inv_init _))

/-! ### The stack: well-formedness, counters, and exit of the two `while` loops -/

theorem wf_size_zero (s : sorted_multi_stack_support) (h : s.wf) (h0 : s.size = 0) :
    s.runs = [] := by
  cases s with
  | mk runs =>
    cases runs with
    | nil => rfl
    | cons p rest =>
      have := h p (by simp)
      simp [sorted_multi_stack_support.size] at h0
      omega

theorem wf_push (s : sorted_multi_stack_support) (x : Nat) (h : s.wf) : (s.push x).wf := by
  cases s with
  | mk runs =>
    cases runs with
    | nil =>
      intro p hp
      simp [sorted_multi_stack_support.push] at hp
      simp [hp]
    | cons q rest =>
      obtain ⟨v, c⟩ := q
      intro p hp
      simp only [sorted_multi_stack_support.push] at hp
      split at hp
      · rcases List.mem_cons.1 hp with e | e
        · simp [e]
        · exact h p (List.mem_cons_of_mem _ e)
      · rcases List.mem_cons.1 hp with e | e
        · simp [e]
        · exact h p e

theorem size_push (s : sorted_multi_stack_support) (x : Nat) :
    (s.push x).size = s.size + 1 := by
  cases s with
  | mk runs =>
    cases runs with
    | nil => simp [sorted_multi_stack_support.push, sorted_multi_stack_support.size]
    | cons q rest =>
      obtain ⟨v, c⟩ := q
      simp only [sorted_multi_stack_support.push]
      split <;> simp [sorted_multi_stack_support.size] <;> omega

theorem runs_push_le (s : sorted_multi_stack_support) (x : Nat) :
    (s.push x).runs.length ≤ s.runs.length + 1 := by
  cases s with
  | mk runs =>
    cases runs with
    | nil => simp [sorted_multi_stack_support.push]
    | cons q rest =>
      obtain ⟨v, c⟩ := q
      simp only [sorted_multi_stack_support.push]
      split <;> simp

theorem wf_pop (s : sorted_multi_stack_support) (h : s.wf) : s.pop.2.wf := by
  cases s with
  | mk runs =>
    cases runs with
    | nil => simpa [sorted_multi_stack_support.pop] using h
    | cons q rest =>
      obtain ⟨v, c⟩ := q
      simp only [sorted_multi_stack_support.pop]
      split
      · intro p hp
        exact h p (List.mem_cons_of_mem _ hp)
      · intro p hp
        rcases List.mem_cons.1 hp with e | e
        · simp [e]; omega
        · exact h p (List.mem_cons_of_mem _ e)

theorem size_pop (s : sorted_multi_stack_support) (h : s.wf) (hne : s.empty = false) :
    s.pop.2.size + 1 = s.size := by
  cases s with
  | mk runs =>
    cases runs with
    | nil => simp [sorted_multi_stack_support.empty] at hne
    | cons q rest =>
      obtain ⟨v, c⟩ := q
      have hc : 1 ≤ c := h (v, c) (by simp)
      simp only [sorted_multi_stack_support.pop]
      split <;> simp [sorted_multi_stack_support.size] <;> omega

theorem runs_pop (s : sorted_multi_stack_support) (hne : s.empty = false) :
    s.pop.2.runs.length + (if s.pop.1 then 1 else 0) = s.runs.length := by
  cases s with
  | mk runs =>
    cases runs with
    | nil => simp [sorted_multi_stack_support.empty] at hne
    | cons q rest =>
      obtain ⟨v, c⟩ := q
      simp only [sorted_multi_stack_support.pop]
      split <;> simp

@[simp] theorem classify_vec_stack (flag : Bool) (st : cstate) :
    (classify flag st).vec_stack = st.vec_stack := by
  unfold classify; split_ifs <;> rfl

@[simp] theorem classify_pushes (flag : Bool) (st : cstate) :
    (classify flag st).pushes = st.pushes := by
  unfold classify; split_ifs <;> rfl

@[simp] theorem classify_pops (flag : Bool) (st : cstate) :
    (classify flag st).pops = st.pops := by
  unfold classify; split_ifs <;> rfl

@[simp] theorem classify_fc_cnt (flag : Bool) (st : cstate) :
    (classify flag st).fc_cnt = st.fc_cnt + 1 := by
  unfold classify; split_ifs <;> rfl

@[simp] theorem classify_flags (flag : Bool) (st : cstate) :
    (classify flag st).is_big_and_not_reducable = st.is_big_and_not_reducable := by
  unfold classify; split_ifs <;> rfl

@[simp] theorem classify_last_bwti (flag : Bool) (st : cstate) :
    (classify flag st).last_bwti = st.last_bwti := by
  unfold classify; split_ifs <;> rfl

theorem stack_inv_init (n : Nat) : stack_inv (init n) := by
  constructor
  · intro p hp; simp [init] at hp
  · simp [init]
  · simp [init, sorted_multi_stack_support.size]

@[simp] theorem scan_pop_vec_stack (st : cstate) :
    (scan_pop st).vec_stack = st.vec_stack.pop.2 := by
  unfold scan_pop; simp only []; split <;> simp

@[simp] theorem scan_pop_pushes (st : cstate) : (scan_pop st).pushes = st.pushes := by
  unfold scan_pop; simp only []; split <;> simp

@[simp] theorem scan_pop_pops (st : cstate) : (scan_pop st).pops = st.pops + 1 := by
  unfold scan_pop; simp only []; split <;> simp

theorem scan_pop_fc_cnt (st : cstate) :
    (scan_pop st).fc_cnt = st.fc_cnt + (if st.vec_stack.pop.1 then 1 else 0) := by
  unfold scan_pop; simp only []; split <;> simp

@[simp] theorem flush_pop_vec_stack (st : cstate) :
    (flush_pop st).vec_stack = st.vec_stack.pop.2 := by
  unfold flush_pop; simp only []; split <;> simp

@[simp] theorem flush_pop_pushes (st : cstate) : (flush_pop st).pushes = st.pushes := by
  unfold flush_pop; simp only []; split <;> simp

@[simp] theorem flush_pop_pops (st : cstate) : (flush_pop st).pops = st.pops + 1 := by
  unfold flush_pop; simp only []; split <;> simp

theorem flush_pop_fc_cnt (st : cstate) :
    (flush_pop st).fc_cnt = st.fc_cnt + (if st.vec_stack.pop.1 then 1 else 0) := by
  unfold flush_pop; simp only []; split <;> simp

theorem stack_inv_scan_pop (st : cstate) (h : stack_inv st) (hne : st.vec_stack.empty = false) :
    stack_inv (scan_pop st) := by
  have h1 := size_pop _ h.wf hne
  have h2 := runs_pop _ hne
  have h3 := h.bound
  have h4 := h.balance
  refine ⟨by simpa using wf_pop _ h.wf, ?_, ?_⟩
  · rw [scan_pop_fc_cnt]; simp only [scan_pop_vec_stack, scan_pop_pushes]; omega
  · simp only [scan_pop_vec_stack, scan_pop_pushes, scan_pop_pops]; omega

theorem stack_inv_flush_pop (st : cstate) (h : stack_inv st)
    (hne : st.vec_stack.empty = false) : stack_inv (flush_pop st) := by
  have h1 := size_pop _ h.wf hne
  have h2 := runs_pop _ hne
  have h3 := h.bound
  have h4 := h.balance
  refine ⟨by simpa using wf_pop _ h.wf, ?_, ?_⟩
  · rw [flush_pop_fc_cnt]; simp only [flush_pop_vec_stack, flush_pop_pushes]; omega
  · simp only [flush_pop_vec_stack, flush_pop_pushes, flush_pop_pops]; omega

theorem stack_inv_scan_pops (x fuel : Nat) (st : cstate) (h : stack_inv st) :
    stack_inv (scan_pops x fuel st) := by
  induction fuel generalizing st with
  | zero => exact h
  | succ k ih =>
    unfold scan_pops
    split
    · rename_i hc
      have hne : st.vec_stack.empty = false := by
        simp only [Bool.and_eq_true, Bool.not_eq_true'] at hc
        exact hc.1
      exact ih _ (stack_inv_scan_pop st h hne)
    · exact h

/-- The fuel given to the inner `while` loop of the scan is enough: when `scan_pops` stops,
the loop condition of line 270 is false. -/
theorem scan_pops_exit (x fuel : Nat) (st : cstate) (h : stack_inv st)
    (hfuel : st.vec_stack.size ≤ fuel) :
    (!(scan_pops x fuel st).vec_stack.empty &&
      decide (x < (scan_pops x fuel st).vec_stack.top)) = false := by
  induction fuel generalizing st with
  | zero =>
    have : st.vec_stack.runs = [] := wf_size_zero _ h.wf (by omega)
    simp [scan_pops, sorted_multi_stack_support.empty, this]
  | succ k ih =>
    unfold scan_pops
    split
    · rename_i hc
      have hne : st.vec_stack.empty = false := by
        simp only [Bool.and_eq_true, Bool.not_eq_true'] at hc
        exact hc.1
      have h1 := size_pop _ h.wf hne
      exact ih _ (stack_inv_scan_pop st h hne) (by simp only [scan_pop_vec_stack]; omega)
    · rename_i hc
      simpa using hc

theorem stack_inv_flush (fuel : Nat) (st : cstate) (h : stack_inv st) :
    stack_inv (flush fuel st) := by
  induction fuel generalizing st with
  | zero => exact h
  | succ k ih =>
    unfold flush
    split
    · rename_i hc
      have hne : st.vec_stack.empty = false := by simpa using hc
      exact ih _ (stack_inv_flush_pop st h hne)
    · exact h

/-- The fuel given to the final `while` loop is enough: when `flush` stops, the stack is
empty. -/
theorem flush_exit (fuel : Nat) (st : cstate) (h : stack_inv st)
    (hfuel : st.vec_stack.size ≤ fuel) : (flush fuel st).vec_stack.empty = true := by
  induction fuel generalizing st with
  | zero =>
    have : st.vec_stack.runs = [] := wf_size_zero _ h.wf (by omega)
    simp [flush, sorted_multi_stack_support.empty, this]
  | succ k ih =>
    unfold flush
    split
    · rename_i hc
      have hne : st.vec_stack.empty = false := by simpa using hc
      have h1 := size_pop _ h.wf hne
      exact ih _ (stack_inv_flush_pop st h hne) (by simp only [flush_pop_vec_stack]; omega)
    · rename_i hc
      simpa using hc

@[simp] theorem scan_pops_pushes (x fuel : Nat) (st : cstate) :
    (scan_pops x fuel st).pushes = st.pushes := by
  induction fuel generalizing st with
  | zero => rfl
  | succ k ih =>
    unfold scan_pops
    split
    · rw [ih]; simp
    · rfl

@[simp] theorem flush_pushes (fuel : Nat) (st : cstate) :
    (flush fuel st).pushes = st.pushes := by
  induction fuel generalizing st with
  | zero => rfl
  | succ k ih =>
    unfold flush
    split
    · rw [ih]; simp
    · rfl

theorem scan_body_pushes (d : Nat) (B : List Nat) (i x : Nat) (st : cstate) :
    (scan_body d B i x st).pushes = st.pushes + 1 := by
  simp [scan_body]

theorem stack_inv_scan_body (d : Nat) (B : List Nat) (i x : Nat) (st : cstate)
    (h : stack_inv st) : stack_inv (scan_body d B i x st) := by
  have h0 : stack_inv { st with is_one_big_and_not_reducable := false } :=
    ⟨h.wf, h.bound, h.balance⟩
  have h2 := stack_inv_scan_pops x st.vec_stack.size _ h0
  have h3 := runs_push_le (scan_pops x st.vec_stack.size
    { st with is_one_big_and_not_reducable := false }).vec_stack x
  have h4 := size_push (scan_pops x st.vec_stack.size
    { st with is_one_big_and_not_reducable := false }).vec_stack x
  have h5 := h2.bound
  have h6 := h2.balance
  refine ⟨wf_push _ x h2.wf, ?_, ?_⟩
  · simp only [scan_body]; omega
  · simp only [scan_body]; omega

theorem stack_inv_scan (d : Nat) (B : List Nat) (i : Nat) (L : List Nat) (st : cstate)
    (h : stack_inv st) : stack_inv (scan d B i L st) := by
  induction L generalizing i st with
  | nil => exact h
  | cons x rest ih => exact ih _ _ (stack_inv_scan_body d B i x st h)

theorem scan_pushes (d : Nat) (B : List Nat) (i : Nat) (L : List Nat) (st : cstate) :
    (scan d B i L st).pushes = st.pushes + L.length := by
  induction L generalizing i st with
  | nil => rfl
  | cons x rest ih =>
    simp only [scan, ih, scan_body_pushes, List.length_cons]; omega

theorem stack_inv_construct (d : Nat) (L B : List Nat) :
    stack_inv (construct_state d L B) :=
  stack_inv_flush _ _ (stack_inv_scan d B 0 L _ (stack_inv_init _))

theorem construct_pushes (d : Nat) (L B : List Nat) :
    (construct_state d L B).pushes = L.length := by
  simp [construct_state, scan_pushes, init]

/-- The number of emitted small-tier entries never exceeds the input length. -/
theorem construct_fc_cnt_le (d : Nat) (L B : List Nat) :
    (construct_state d L B).fc_cnt ≤ L.length := by
  have h := (stack_inv_construct d L B).bound
  rw [construct_pushes] at h
  omega

theorem read_big_eq (w : Nat) (rs : List Nat) (y : Nat) (h : ∀ r ∈ rs, r < 2 ^ w) :
    read_big w rs.length rs y = rs := by
  induction rs generalizing y with
  | nil => rfl
  | cons r rs ih =>
    have hr : r % 2 ^ w = r := Nat.mod_eq_of_lt (h r (by simp))
    simp only [List.length_cons, read_big, hr]
    rw [ih r (fun q hq => h q (List.mem_cons_of_mem _ hq))]

theorem read_big_length (w k : Nat) (rs : List Nat) (y : Nat) :
    (read_big w k rs y).length = k := by
  induction k generalizing rs y with
  | zero => simp [read_big]
  | succ k ih =>
    cases rs with
    | nil => simp [read_big, ih]
    | cons r rs => simp [read_big, ih]

theorem le_foldl_max (l : List Nat) (a : Nat) : a ≤ l.foldl max a ∧ ∀ y ∈ l, y ≤ l.foldl max a := by
  induction l generalizing a with
  | nil => simp
  | cons b l ih =>
    have h1 := ih (max a b)
    refine ⟨le_trans (le_max_left a b) h1.1, ?_⟩
    intro y hy
    rcases List.mem_cons.1 hy with e | e
    · subst e; exact le_trans (le_max_right a y) h1.1
    · exact h1.2 y e


/-! ## Random access: `operator[]` -/

theorem access_loop_chain (cst : cst_type) (small : List Nat) (big : int_vector)
    (k b : Nat) : ∀ (i o fuel : Nat),
    (∀ j, j < k → small[cst.tlcp_idx (cst.lf^[j] i)]? = some 254) →
    small[cst.tlcp_idx (cst.lf^[k] i)]? = some 255 →
    big.data[rank small (cst.tlcp_idx (cst.lf^[k] i)) 255]? = some b →
    o + k < 2 ^ 64 → k < fuel →
    access_loop cst small big fuel i o
      = access_result.returned ((b + 2 ^ 64 - (o + k)) % 2 ^ 64) (o + k) := by
  induction k with
  | zero =>
    intro i o fuel _ h255 hb _ hfuel
    obtain ⟨f, rfl⟩ : ∃ f, fuel = f + 1 := ⟨fuel - 1, by omega⟩
    simp only [Function.iterate_zero, id_eq] at h255 hb
    simp [access_loop, h255, hb]
  | succ k ih =>
    intro i o fuel h254 h255 hb ho hfuel
    obtain ⟨f, rfl⟩ : ∃ f, fuel = f + 1 := ⟨fuel - 1, by omega⟩
    have h0 : small[cst.tlcp_idx i]? = some 254 := by simpa using h254 0 (by omega)
    have hmod : (o + 1) % 2 ^ 64 = o + 1 := Nat.mod_eq_of_lt (by omega)
    have hrec := ih (cst.lf i) (o + 1) f
      (fun j hj => by simpa [Function.iterate_succ_apply] using h254 (j + 1) (by omega))
      (by simpa [Function.iterate_succ_apply] using h255)
      (by simpa [Function.iterate_succ_apply] using hb)
      (by omega) (by omega)
    have e : o + 1 + k = o + (k + 1) := by omega
    rw [e] at hrec
    have hmod2 : (o + 1) % 18446744073709551616 = o + 1 := hmod
    simp only [access_loop, h0]
    norm_num at hrec ⊢
    rw [hmod2]
    exact hrec

theorem access_loop_running (cst : cst_type) (small : List Nat) (big : int_vector)
    (fuel : Nat) : ∀ (i o : Nat),
    access_loop cst small big fuel i o = access_result.running ↔
      ∀ j, j < fuel → ∃ e, small[cst.tlcp_idx (cst.lf^[j] i)]? = some e ∧ e % 2 ^ 8 = 254 := by
  induction fuel with
  | zero => intro i o; simp [access_loop]
  | succ f ih =>
    intro i o
    constructor
    · intro h
      cases hs : small[cst.tlcp_idx i]? with
      | none => simp [access_loop, hs] at h
      | some e =>
        simp only [access_loop, hs] at h
        by_cases h1 : e % 2 ^ 8 < 254
        · rw [if_pos h1] at h; cases h
        · rw [if_neg h1] at h
          by_cases h2 : e % 2 ^ 8 = 254
          · rw [if_pos h2] at h
            have hrec := (ih _ _).1 h
            intro j hj
            cases j with
            | zero => exact ⟨e, by simpa using hs, h2⟩
            | succ j => simpa [Function.iterate_succ_apply] using hrec j (by omega)
          · rw [if_neg h2] at h
            cases hb : big.data[rank small (cst.tlcp_idx i) 255]? with
            | none => rw [hb] at h; cases h
            | some b => rw [hb] at h; cases h
    · intro h
      obtain ⟨e, he, he2⟩ := h 0 (by omega)
      have he1 : small[cst.tlcp_idx i]? = some e := by simpa using he
      have hlt : ¬ e % 2 ^ 8 < 254 := by omega
      simp only [access_loop, he1]
      rw [if_neg hlt, if_pos he2]
      exact (ih _ _).2 (fun j hj => by
        simpa [Function.iterate_succ_apply] using h (j + 1) (by omega))


/-! ### Values on the stack and in the output -/

theorem top_mem (s : sorted_multi_stack_support) (hne : s.empty = false) :
    ∃ p ∈ s.runs, p.1 = s.top := by
  cases s with
  | mk runs =>
    cases runs with
    | nil => simp [sorted_multi_stack_support.empty] at hne
    | cons q rest =>
      obtain ⟨v, c⟩ := q
      exact ⟨(v, c), by simp, rfl⟩

theorem pop_runs_vals (P : Nat → Prop) (s : sorted_multi_stack_support)
    (h : ∀ p ∈ s.runs, P p.1) : ∀ p ∈ s.pop.2.runs, P p.1 := by
  cases s with
  | mk runs =>
    cases runs with
    | nil => simp [sorted_multi_stack_support.pop]
    | cons q rest =>
      obtain ⟨v, c⟩ := q
      simp only [sorted_multi_stack_support.pop]
      split
      · intro p hp
        exact h p (List.mem_cons_of_mem _ hp)
      · intro p hp
        rcases List.mem_cons.1 hp with e | e
        · subst e; exact h (v, c) (by simp)
        · exact h p (List.mem_cons_of_mem _ e)

theorem push_runs_vals (P : Nat → Prop) (s : sorted_multi_stack_support) (x : Nat)
    (h : ∀ p ∈ s.runs, P p.1) (hx : P x) : ∀ p ∈ (s.push x).runs, P p.1 := by
  cases s with
  | mk runs =>
    cases runs with
    | nil =>
      intro p hp
      simp [sorted_multi_stack_support.push] at hp
      subst hp; exact hx
    | cons q rest =>
      obtain ⟨v, c⟩ := q
      intro p hp
      simp only [sorted_multi_stack_support.push] at hp
      split at hp
      · rcases List.mem_cons.1 hp with e | e
        · subst e; exact h (v, c) (by simp)
        · exact h p (List.mem_cons_of_mem _ e)
      · rcases List.mem_cons.1 hp with e | e
        · subst e; exact hx
        · exact h p e

theorem classify_classified (flag : Bool) (st : cstate) :
    (classify flag st).classified = st.classified ++ [st.y] := by
  unfold classify; split_ifs <;> rfl

theorem vals_inv_scan_pop (P : Nat → Prop) (st : cstate) (h : vals_inv P st)
    (hne : st.vec_stack.empty = false) : vals_inv P (scan_pop st) := by
  obtain ⟨p, hp, hpt⟩ := top_mem _ hne
  have htop : P st.vec_stack.top := hpt ▸ h.stack p hp
  refine ⟨by simpa using pop_runs_vals P _ h.stack, ?_⟩
  unfold scan_pop
  simp only []
  split
  · intro y hy
    simp only [classify_classified, List.mem_append, List.mem_singleton] at hy
    rcases hy with e | e
    · exact h.out y e
    · subst e; exact htop
  · exact h.out

theorem vals_inv_flush_pop (P : Nat → Prop) (st : cstate) (h : vals_inv P st)
    (hne : st.vec_stack.empty = false) : vals_inv P (flush_pop st) := by
  obtain ⟨p, hp, hpt⟩ := top_mem _ hne
  have htop : P st.vec_stack.top := hpt ▸ h.stack p hp
  refine ⟨by simpa using pop_runs_vals P _ h.stack, ?_⟩
  unfold flush_pop
  simp only []
  split
  · intro y hy
    simp only [classify_classified, List.mem_append, List.mem_singleton] at hy
    rcases hy with e | e
    · exact h.out y e
    · subst e; exact htop
  · exact h.out

theorem vals_inv_scan_pops (P : Nat → Prop) (x fuel : Nat) (st : cstate) (h : vals_inv P st) :
    vals_inv P (scan_pops x fuel st) := by
  induction fuel generalizing st with
  | zero => exact h
  | succ k ih =>
    unfold scan_pops
    split
    · rename_i hc
      have hne : st.vec_stack.empty = false := by
        simp only [Bool.and_eq_true, Bool.not_eq_true'] at hc
        exact hc.1
      exact ih _ (vals_inv_scan_pop P st h hne)
    · exact h

theorem vals_inv_flush (P : Nat → Prop) (fuel : Nat) (st : cstate) (h : vals_inv P st) :
    vals_inv P (flush fuel st) := by
  induction fuel generalizing st with
  | zero => exact h
  | succ k ih =>
    unfold flush
    split
    · rename_i hc
      have hne : st.vec_stack.empty = false := by simpa using hc
      exact ih _ (vals_inv_flush_pop P st h hne)
    · exact h

theorem vals_inv_scan_body (P : Nat → Prop) (d : Nat) (B : List Nat) (i x : Nat) (st : cstate)
    (h : vals_inv P st) (hx : P x) : vals_inv P (scan_body d B i x st) := by
  have h2 := vals_inv_scan_pops P x st.vec_stack.size
    { st with is_one_big_and_not_reducable := false } ⟨h.stack, h.out⟩
  exact ⟨push_runs_vals P _ x h2.stack hx, h2.out⟩

theorem vals_inv_scan (P : Nat → Prop) (d : Nat) (B : List Nat) (i : Nat) (L : List Nat)
    (st : cstate) (h : vals_inv P st) (hL : ∀ x ∈ L, P x) : vals_inv P (scan d B i L st) := by
  induction L generalizing i st with
  | nil => exact h
  | cons x rest ih =>
    exact ih _ _ (vals_inv_scan_body P d B i x st h (hL x (by simp)))
      (fun z hz => hL z (List.mem_cons_of_mem _ hz))

theorem vals_inv_construct (P : Nat → Prop) (d : Nat) (L B : List Nat) (hL : ∀ x ∈ L, P x) :
    vals_inv P (construct_state d L B) :=
  vals_inv_flush P _ _ (vals_inv_scan P d B 0 L _
    ⟨by intro p hp; simp [init] at hp, by intro y hy; simp [init] at hy⟩ hL)

theorem forall₂_entry_small (ys vs : List Nat) (h : List.Forall₂ entry_ok ys vs)
    (hy : ∀ y ∈ ys, y < 254) : vs = ys := by
  induction h with
  | nil => rfl
  | @cons a b l₁ l₂ h1 _ ih =>
    have ha : a ≤ 253 := by have := hy a (by simp); omega
    have hb : b = a := by simpa [entry_ok, ha] using h1
    rw [hb, ih (fun y hy2 => hy y (List.mem_cons_of_mem _ hy2))]

/-- With a helper `hi` that has the bit-length property, no record of the big-tier file is
truncated when it is read back into the array. -/
theorem fill_big_data (hi : Nat → Nat) (hhi : bit_length_like hi) (st : cstate)
    (h : stream_inv st) : (fill_big hi st).data = st.big_lcp_out := by
  have hmax := le_foldl_max st.big_lcp_out 0
  rw [← h.max] at hmax
  simp only [fill_big, ← h.cnt_big]
  exact read_big_eq _ _ _ (fun r hr => lt_of_le_of_lt (hmax.2 r hr) (hhi _))

theorem foldl_max_mem_or (l : List Nat) (a : Nat) : l.foldl max a = a ∨ l.foldl max a ∈ l := by
  induction l generalizing a with
  | nil => simp
  | cons b l ih =>
    rcases ih (max a b) with h | h
    · simp only [List.foldl_cons, h]
      rcases le_total a b with hab | hab
      · right; simp [max_eq_right hab]
      · left; exact max_eq_left hab
    · right; exact List.mem_cons_of_mem _ h

theorem foldl_max_mem (l : List Nat) (hne : l ≠ []) : l.foldl max 0 ∈ l := by
  rcases foldl_max_mem_or l 0 with h | h
  · cases l with
    | nil => exact absurd rfl hne
    | cons b l =>
      have h1 := (le_foldl_max (b :: l) 0).2 b (by simp)
      have hb : b = 0 := by omega
      subst hb
      rw [h]; simp
  · exact h

theorem construct_stack_empty (d : Nat) (L B : List Nat) :
    (construct_state d L B).vec_stack.empty = true :=
  flush_exit _ _ (stack_inv_scan d B 0 L _ (stack_inv_init _)) (le_refl _)

theorem construct_pops (d : Nat) (L B : List Nat) :
    (construct_state d L B).pops = L.length := by
  have h := (stack_inv_construct d L B).balance
  have he := construct_stack_empty d L B
  have hr : (construct_state d L B).vec_stack.runs = [] := by
    simpa [sorted_multi_stack_support.empty] using he
  rw [construct_pushes] at h
  simpa [sorted_multi_stack_support.size, hr] using h


/-! ### The stack as the list of its copies, and the states along the scan -/

theorem vals_length (s : sorted_multi_stack_support) : s.vals.length = s.size := by
  cases s with
  | mk runs =>
    simp only [sorted_multi_stack_support.vals, sorted_multi_stack_support.size]
    induction runs with
    | nil => rfl
    | cons q rest ih =>
      obtain ⟨v, c⟩ := q
      simp [vals_of, ih]; omega

theorem vals_push (s : sorted_multi_stack_support) (x : Nat) :
    (s.push x).vals = s.vals ++ [x] := by
  cases s with
  | mk runs =>
    cases runs with
    | nil => simp [sorted_multi_stack_support.push, sorted_multi_stack_support.vals, vals_of]
    | cons q rest =>
      obtain ⟨v, c⟩ := q
      simp only [sorted_multi_stack_support.push, sorted_multi_stack_support.vals]
      split
      · rename_i h
        subst h
        simp [vals_of, List.replicate_succ']
      · simp [vals_of]

theorem vals_pop (s : sorted_multi_stack_support) (h : s.wf) (hne : s.empty = false) :
    s.pop.2.vals ++ [s.top] = s.vals := by
  cases s with
  | mk runs =>
    cases runs with
    | nil => simp [sorted_multi_stack_support.empty] at hne
    | cons q rest =>
      obtain ⟨v, c⟩ := q
      have hc : 1 ≤ c := h (v, c) (by simp)
      simp only [sorted_multi_stack_support.pop, sorted_multi_stack_support.vals,
        sorted_multi_stack_support.top]
      split
      · have : c = 1 := by omega
        subst this
        simp [vals_of]
      · obtain ⟨k, rfl⟩ : ∃ k, c = k + 1 := ⟨c - 1, by omega⟩
        simp [vals_of, List.replicate_succ']

theorem scan_append (d : Nat) (B : List Nat) (i : Nat) (L₁ L₂ : List Nat) (st : cstate) :
    scan d B i (L₁ ++ L₂) st = scan d B (i + L₁.length) L₂ (scan d B i L₁ st) := by
  induction L₁ generalizing i st with
  | nil => rfl
  | cons x rest ih =>
    have e : i + 1 + rest.length = i + (rest.length + 1) := by omega
    show scan d B (i + 1) (rest ++ L₂) (scan_body d B i x st) =
      scan d B (i + (rest.length + 1)) L₂ (scan d B (i + 1) rest (scan_body d B i x st))
    rw [ih, e]

theorem state_at_zero (d : Nat) (L B : List Nat) : state_at d L B 0 = init L.length := by
  simp [state_at, scan]

theorem state_at_succ (d : Nat) (L B : List Nat) (i x : Nat) (hx : L[i]? = some x) :
    state_at d L B (i + 1) = scan_body d B i x (state_at d L B i) := by
  obtain ⟨hlt, hget⟩ := List.getElem?_eq_some.1 hx
  have htake : L.take (i + 1) = L.take i ++ [x] := by
    rw [List.take_succ, hx]; rfl
  have hlen : (L.take i).length = i := by simp; omega
  simp only [state_at, htake, scan_append, hlen, Nat.zero_add, scan]

/-- The scan of the whole input passes through `state_at i` for every position `i`. -/
theorem scan_through_state_at (d : Nat) (L B : List Nat) (i : Nat) (hi : i ≤ L.length) :
    scan d B 0 L (init L.length) = scan d B i (L.drop i) (state_at d L B i) := by
  have h := scan_append d B 0 (L.take i) (L.drop i) (init L.length)
  rw [List.take_append_drop] at h
  have hlen : (L.take i).length = i := by simp; omega
  rw [h, hlen, Nat.zero_add, state_at]

theorem state_at_stack_inv (d : Nat) (L B : List Nat) (i : Nat) :
    stack_inv (state_at d L B i) :=
  stack_inv_scan d B 0 _ _ (stack_inv_init _)

theorem state_at_pushes (d : Nat) (L B : List Nat) (i : Nat) (hi : i ≤ L.length) :
    (state_at d L B i).pushes = i := by
  simp [state_at, scan_pushes, init]; omega

theorem after_pops_stack_inv (x : Nat) (st : cstate) (h : stack_inv st) :
    stack_inv (after_pops x st) :=
  stack_inv_scan_pops x _ _ ⟨h.wf, h.bound, h.balance⟩

theorem scan_body_eq (d : Nat) (B : List Nat) (i x : Nat) (st : cstate) :
    scan_body d B i x st =
      { after_pops x st with
        is_big_and_not_reducable := (after_pops x st).is_big_and_not_reducable.set
          (after_pops x st).vec_stack.size
          (push_flag d i x (after_pops x st).last_bwti (B.getD i 0))
        vec_stack := (after_pops x st).vec_stack.push x
        last_bwti := B.getD i 0
        pushes := (after_pops x st).pushes + 1 } := rfl

/-- The fuel of the inner loop is enough: in `after_pops x st` the stack is empty or its
top is at most `x`. -/
theorem after_pops_exit (x : Nat) (st : cstate) (h : stack_inv st) :
    (after_pops x st).vec_stack.empty = true ∨ (after_pops x st).vec_stack.top ≤ x := by
  have h0 := scan_pops_exit x st.vec_stack.size
    { st with is_one_big_and_not_reducable := false } ⟨h.wf, h.bound, h.balance⟩ (le_refl _)
  unfold after_pops
  cases he : (scan_pops x st.vec_stack.size
      { st with is_one_big_and_not_reducable := false }).vec_stack.empty with
  | true => exact Or.inl rfl
  | false =>
    right
    rw [he] at h0
    simpa using h0


/-! ### Order of the stack, and what the scan has recorded when it reaches a position -/

theorem sorted_pop (s : sorted_multi_stack_support) (h : s.sorted) : s.pop.2.sorted := by
  cases s with
  | mk runs =>
    cases runs with
    | nil => simpa [sorted_multi_stack_support.pop] using h
    | cons q rest =>
      obtain ⟨v, c⟩ := q
      have h' : List.Pairwise (fun p q : Nat × Nat => q.1 < p.1) ((v, c) :: rest) := h
      rw [List.pairwise_cons] at h'
      simp only [sorted_multi_stack_support.pop]
      split
      · exact h'.2
      · show List.Pairwise (fun p q : Nat × Nat => q.1 < p.1) ((v, c - 1) :: rest)
        rw [List.pairwise_cons]
        exact ⟨h'.1, h'.2⟩

theorem sorted_push (s : sorted_multi_stack_support) (x : Nat) (h : s.sorted)
    (hx : s.empty = true ∨ s.top ≤ x) : (s.push x).sorted := by
  cases s with
  | mk runs =>
    cases runs with
    | nil =>
      show List.Pairwise (fun p q : Nat × Nat => q.1 < p.1) [(x, 1)]
      exact List.pairwise_singleton _ _
    | cons q rest =>
      obtain ⟨v, c⟩ := q
      have h' : List.Pairwise (fun p q : Nat × Nat => q.1 < p.1) ((v, c) :: rest) := h
      have hvx : v ≤ x := by
        rcases hx with he | ht
        · simp [sorted_multi_stack_support.empty] at he
        · simpa [sorted_multi_stack_support.top] using ht
      simp only [sorted_multi_stack_support.push]
      split
      · show List.Pairwise (fun p q : Nat × Nat => q.1 < p.1) ((v, c + 1) :: rest)
        rw [List.pairwise_cons] at h' ⊢
        exact ⟨h'.1, h'.2⟩
      · rename_i hne
        show List.Pairwise (fun p q : Nat × Nat => q.1 < p.1) ((x, 1) :: (v, c) :: rest)
        rw [List.pairwise_cons]
        refine ⟨?_, h'⟩
        intro p hp
        rw [List.pairwise_cons] at h'
        rcases List.mem_cons.1 hp with e | e
        · subst e; show v < x; omega
        · have := h'.1 p e
          show p.1 < x
          omega

theorem mem_vals_of (runs : List (Nat × Nat)) (a : Nat) (h : a ∈ vals_of runs) :
    ∃ p ∈ runs, p.1 = a := by
  induction runs with
  | nil => simp [vals_of] at h
  | cons q rest ih =>
    obtain ⟨v, c⟩ := q
    simp only [vals_of, List.mem_append] at h
    rcases h with h | h
    · obtain ⟨p, hp, e⟩ := ih h
      exact ⟨p, List.mem_cons_of_mem _ hp, e⟩
    · exact ⟨(v, c), by simp, (List.eq_of_mem_replicate h).symm⟩

theorem pairwise_le_replicate (c v : Nat) : List.Pairwise (· ≤ ·) (List.replicate c v) := by
  induction c with
  | zero => simp
  | succ k ih =>
    rw [List.replicate_succ, List.pairwise_cons]
    exact ⟨fun a ha => le_of_eq (List.eq_of_mem_replicate ha).symm, ih⟩

theorem vals_sorted (s : sorted_multi_stack_support) (h : s.sorted) :
    List.Pairwise (· ≤ ·) s.vals := by
  cases s with
  | mk runs =>
    have h' : List.Pairwise (fun p q : Nat × Nat => q.1 < p.1) runs := h
    show List.Pairwise (· ≤ ·) (vals_of runs)
    induction runs with
    | nil => simp [vals_of]
    | cons q rest ih =>
      obtain ⟨v, c⟩ := q
      rw [List.pairwise_cons] at h'
      simp only [vals_of]
      rw [List.pairwise_append]
      refine ⟨ih h'.2 h'.2, pairwise_le_replicate c v, ?_⟩
      intro a ha b hb
      obtain ⟨p, hp, e⟩ := mem_vals_of rest a ha
      have h1 := h'.1 p hp
      have h2 := List.eq_of_mem_replicate hb
      simp only at h1
      omega

theorem sorted_scan_pops (x fuel : Nat) (st : cstate) (h : st.vec_stack.sorted) :
    (scan_pops x fuel st).vec_stack.sorted := by
  induction fuel generalizing st with
  | zero => exact h
  | succ k ih =>
    unfold scan_pops
    split
    · exact ih _ (by simpa using sorted_pop _ h)
    · exact h

theorem sorted_after_pops (x : Nat) (st : cstate) (h : st.vec_stack.sorted) :
    (after_pops x st).vec_stack.sorted :=
  sorted_scan_pops x _ _ h

theorem sorted_scan_body (d : Nat) (B : List Nat) (i x : Nat) (st : cstate)
    (h : st.vec_stack.sorted) (hs : stack_inv st) : (scan_body d B i x st).vec_stack.sorted := by
  rw [scan_body_eq]
  exact sorted_push _ x (sorted_after_pops x st h) (after_pops_exit x st hs)

theorem sorted_scan (d : Nat) (B : List Nat) (i : Nat) (L : List Nat) (st : cstate)
    (h : st.vec_stack.sorted) (hs : stack_inv st) : (scan d B i L st).vec_stack.sorted := by
  induction L generalizing i st with
  | nil => exact h
  | cons x rest ih =>
    exact ih _ _ (sorted_scan_body d B i x st h hs) (stack_inv_scan_body d B i x st hs)

theorem sorted_flush (fuel : Nat) (st : cstate) (h : st.vec_stack.sorted) :
    (flush fuel st).vec_stack.sorted := by
  induction fuel generalizing st with
  | zero => exact h
  | succ k ih =>
    unfold flush
    split
    · exact ih _ (by simpa using sorted_pop _ h)
    · exact h

theorem sorted_init (n : Nat) : (init n).vec_stack.sorted := by
  show List.Pairwise (fun p q : Nat × Nat => q.1 < p.1) []
  exact List.Pairwise.nil

theorem state_at_sorted (d : Nat) (L B : List Nat) (i : Nat) :
    (state_at d L B i).vec_stack.sorted :=
  sorted_scan d B 0 _ _ (sorted_init _) (stack_inv_init _)

@[simp] theorem scan_pop_last_bwti (st : cstate) : (scan_pop st).last_bwti = st.last_bwti := by
  unfold scan_pop; simp only []; split <;> simp

@[simp] theorem scan_pop_flags (st : cstate) :
    (scan_pop st).is_big_and_not_reducable = st.is_big_and_not_reducable := by
  unfold scan_pop; simp only []; split <;> simp

@[simp] theorem scan_pops_last_bwti (x fuel : Nat) (st : cstate) :
    (scan_pops x fuel st).last_bwti = st.last_bwti := by
  induction fuel generalizing st with
  | zero => rfl
  | succ k ih =>
    unfold scan_pops
    split
    · rw [ih]; simp
    · rfl

@[simp] theorem scan_pops_flags (x fuel : Nat) (st : cstate) :
    (scan_pops x fuel st).is_big_and_not_reducable = st.is_big_and_not_reducable := by
  induction fuel generalizing st with
  | zero => rfl
  | succ k ih =>
    unfold scan_pops
    split
    · rw [ih]; simp
    · rfl

@[simp] theorem after_pops_last_bwti (x : Nat) (st : cstate) :
    (after_pops x st).last_bwti = st.last_bwti := by
  simp [after_pops]

@[simp] theorem after_pops_flags (x : Nat) (st : cstate) :
    (after_pops x st).is_big_and_not_reducable = st.is_big_and_not_reducable := by
  simp [after_pops]

@[simp] theorem after_pops_pushes (x : Nat) (st : cstate) :
    (after_pops x st).pushes = st.pushes := by
  simp [after_pops]

theorem scan_flags_length (d : Nat) (B : List Nat) (i : Nat) (L : List Nat) (st : cstate) :
    (scan d B i L st).is_big_and_not_reducable.length = st.is_big_and_not_reducable.length := by
  induction L generalizing i st with
  | nil => rfl
  | cons x rest ih =>
    simp only [scan, ih, scan_body_eq, List.length_set, after_pops_flags]

theorem state_at_flags_length (d : Nat) (L B : List Nat) (i : Nat) :
    (state_at d L B i).is_big_and_not_reducable.length = L.length := by
  simp [state_at, scan_flags_length, init]

/-- When the scan reaches a position `i >= 1`, `last_bwti` is the run symbol of position
`i - 1`. -/
theorem state_at_last_bwti (d : Nat) (L B : List Nat) (i : Nat) (hi : i < L.length) :
    (state_at d L B (i + 1)).last_bwti = B.getD i 0 := by
  have hx : L[i]? = some L[i] := List.getElem?_eq_getElem hi
  rw [state_at_succ d L B i _ hx, scan_body_eq]

/-- The slot written at line 303/307 lies inside the bit vector. -/
theorem after_pops_size_lt (d : Nat) (L B : List Nat) (i x : Nat) (hi : i < L.length) :
    (after_pops x (state_at d L B i)).vec_stack.size < L.length := by
  have h := (after_pops_stack_inv x _ (state_at_stack_inv d L B i)).balance
  rw [after_pops_pushes, state_at_pushes d L B i (by omega)] at h
  omega


/-! ### The sampling rule -/

theorem getD_set_ne (l : List Bool) (n k : Nat) (a : Bool) (h : k ≠ n) :
    (l.set n a).getD k false = l.getD k false := by
  simp [List.getD, List.getElem?_set_ne (Ne.symm h)]

theorem getD_set_eq (l : List Bool) (n : Nat) (a : Bool) (h : n < l.length) :
    (l.set n a).getD n false = a := by
  simp [List.getD, h]

theorem classify_sml (flag : Bool) (st : cstate) :
    ∃ v, (classify flag st).sml_lcp_out = st.sml_lcp_out ++ [v] ∧
      (254 ≤ st.y → flag = true → v = 255) := by
  unfold classify
  by_cases hy : st.y > M - 2
  · cases flag
    · exact ⟨(M - 1) % 2 ^ 8, by simp [hy], by intro _ h; cases h⟩
    · exact ⟨M % 2 ^ 8, by simp [hy], by intro _ _; simp [M]⟩
  · refine ⟨st.y % 2 ^ 8, by simp [hy], ?_⟩
    intro h
    simp [M] at hy
    omega

theorem sample_out_classify (d : Nat) (flag : Bool) (st : cstate)
    (h : List.Forall₂ (sample_ok d) st.classified st.sml_lcp_out)
    (hf : 254 ≤ st.y → st.y % d = 0 → flag = true) :
    List.Forall₂ (sample_ok d) (classify flag st).classified (classify flag st).sml_lcp_out := by
  obtain ⟨v, hv, hv2⟩ := classify_sml flag st
  rw [classify_classified, hv]
  exact forall₂_snoc h (fun h1 h2 => hv2 h1 (hf h1 h2))

/-- The flag of the topmost copy of a sampled value is set. -/
theorem top_flag (d : Nat) (st : cstate) (h : sample_inv d st) (hs : stack_inv st)
    (hne : st.vec_stack.empty = false) :
    254 ≤ st.vec_stack.top → st.vec_stack.top % d = 0 →
      st.is_big_and_not_reducable.getD (st.vec_stack.size - 1) false = true := by
  intro h1 h2
  have hv := vals_pop _ hs.wf hne
  have hsz := size_pop _ hs.wf hne
  have hl := vals_length st.vec_stack.pop.2
  apply h.flags (st.vec_stack.size - 1) st.vec_stack.top _ h1 h2
  rw [← hv]
  have e : st.vec_stack.size - 1 = st.vec_stack.pop.2.vals.length := by omega
  rw [e]
  simp

theorem pop_flags (d : Nat) (st : cstate) (h : sample_inv d st) (hs : stack_inv st)
    (hne : st.vec_stack.empty = false) :
    ∀ k v, st.vec_stack.pop.2.vals[k]? = some v → 254 ≤ v → v % d = 0 →
      st.is_big_and_not_reducable.getD k false = true := by
  intro k v hk h1 h2
  have hv := vals_pop _ hs.wf hne
  apply h.flags k v _ h1 h2
  rw [← hv]
  have hlt : k < st.vec_stack.pop.2.vals.length := (List.getElem?_eq_some.1 hk).1
  rw [List.getElem?_append_left hlt]
  exact hk

theorem sample_inv_scan_pop (d : Nat) (st : cstate) (h : sample_inv d st) (hs : stack_inv st)
    (hne : st.vec_stack.empty = false) : sample_inv d (scan_pop st) := by
  have htop := top_flag d st h hs hne
  refine ⟨by simpa using pop_flags d st h hs hne, ?_⟩
  unfold scan_pop
  simp only []
  split
  · refine sample_out_classify d _ _ h.out (fun h1 h2 => ?_)
    show (st.is_one_big_and_not_reducable ||
      st.is_big_and_not_reducable.getD (st.vec_stack.size - 1) false) = true
    rw [htop h1 h2, Bool.or_true]
  · exact h.out

theorem sample_inv_flush_pop (d : Nat) (st : cstate) (h : sample_inv d st) (hs : stack_inv st)
    (hne : st.vec_stack.empty = false) : sample_inv d (flush_pop st) := by
  have htop := top_flag d st h hs hne
  have hsz := size_pop _ hs.wf hne
  have e : st.vec_stack.pop.2.size = st.vec_stack.size - 1 := by omega
  refine ⟨?_, ?_⟩
  · have := pop_flags d st h hs hne
    unfold flush_pop
    simp only []
    split <;> simpa using this
  · unfold flush_pop
    simp only []
    split
    · exact sample_out_classify d _ _ h.out (fun h1 h2 => by simp only [e]; exact htop h1 h2)
    · exact h.out

theorem sample_inv_scan_pops (d x fuel : Nat) (st : cstate) (h : sample_inv d st)
    (hs : stack_inv st) : sample_inv d (scan_pops x fuel st) := by
  induction fuel generalizing st with
  | zero => exact h
  | succ k ih =>
    unfold scan_pops
    split
    · rename_i hc
      have hne : st.vec_stack.empty = false := by
        simp only [Bool.and_eq_true, Bool.not_eq_true'] at hc
        exact hc.1
      exact ih _ (sample_inv_scan_pop d st h hs hne) (stack_inv_scan_pop st hs hne)
    · exact h

theorem sample_inv_flush (d fuel : Nat) (st : cstate) (h : sample_inv d st)
    (hs : stack_inv st) : sample_inv d (flush fuel st) := by
  induction fuel generalizing st with
  | zero => exact h
  | succ k ih =>
    unfold flush
    split
    · rename_i hc
      have hne : st.vec_stack.empty = false := by simpa using hc
      exact ih _ (sample_inv_flush_pop d st h hs hne) (stack_inv_flush_pop st hs hne)
    · exact h

theorem sample_inv_scan_body (d : Nat) (B : List Nat) (i x : Nat) (st : cstate)
    (h : sample_inv d st) (hs : stack_inv st)
    (hroom : st.pushes < st.is_big_and_not_reducable.length) :
    sample_inv d (scan_body d B i x st) := by
  have h2 : sample_inv d (after_pops x st) :=
    sample_inv_scan_pops d x _ _ ⟨h.flags, h.out⟩ ⟨hs.wf, hs.bound, hs.balance⟩
  have hs2 := after_pops_stack_inv x st hs
  have hbal := hs2.balance
  rw [after_pops_pushes] at hbal
  have hlen := vals_length (after_pops x st).vec_stack
  rw [scan_body_eq]
  refine ⟨?_, h2.out⟩
  intro k v hk h254 hmod
  simp only [vals_push] at hk
  simp only [after_pops_flags]
  by_cases hkl : k < (after_pops x st).vec_stack.vals.length
  · rw [List.getElem?_append_left hkl] at hk
    rw [getD_set_ne st.is_big_and_not_reducable (after_pops x st).vec_stack.size k _
      (by omega)]
    have := h2.flags k v hk h254 hmod
    rw [after_pops_flags] at this
    exact this
  · have hk2 := (List.getElem?_eq_some.1 hk).1
    simp only [List.length_append, List.length_singleton] at hk2
    have hke : k = (after_pops x st).vec_stack.size := by omega
    subst hke
    have hv : v = x := by
      rw [← hlen] at hk
      simpa using hk.symm
    subst hv
    rw [getD_set_eq st.is_big_and_not_reducable (after_pops v st).vec_stack.size _
      (by omega)]
    simp [push_flag, M, hmod]
    omega

theorem sample_inv_scan (d : Nat) (B : List Nat) (i : Nat) (L : List Nat) (st : cstate)
    (h : sample_inv d st) (hs : stack_inv st)
    (hroom : st.pushes + L.length ≤ st.is_big_and_not_reducable.length) :
    sample_inv d (scan d B i L st) := by
  induction L generalizing i st with
  | nil => exact h
  | cons x rest ih =>
    simp only [List.length_cons] at hroom
    refine ih _ _ (sample_inv_scan_body d B i x st h hs (by omega))
      (stack_inv_scan_body d B i x st hs) ?_
    rw [scan_body_pushes]
    simp only [scan_body_eq, List.length_set, after_pops_flags]
    omega

theorem sample_inv_construct (d : Nat) (L B : List Nat) :
    sample_inv d (construct_state d L B) := by
  refine sample_inv_flush d _ _ (sample_inv_scan d B 0 L _ ?_ (stack_inv_init _) ?_)
    (stack_inv_scan d B 0 L _ (stack_inv_init _))
  · refine ⟨?_, by simp [init]⟩
    intro k v hk
    simp [init, sorted_multi_stack_support.vals, vals_of] at hk
  · simp [init]

theorem forall₂_and {R S : Nat → Nat → Prop} {l₁ l₂ : List Nat}
    (h₁ : List.Forall₂ R l₁ l₂) (h₂ : List.Forall₂ S l₁ l₂) :
    List.Forall₂ (fun a b => R a b ∧ S a b) l₁ l₂ := by
  induction h₁ with
  | nil => exact List.Forall₂.nil
  | cons h1 _ ih =>
    cases h₂ with
    | cons h2 h2t => exact List.Forall₂.cons ⟨h1, h2⟩ (ih h2t)

theorem forall₂_get {R : Nat → Nat → Prop} {l₁ l₂ : List Nat} (h : List.Forall₂ R l₁ l₂)
    (idx a : Nat) (ha : l₁[idx]? = some a) : ∃ b, l₂[idx]? = some b ∧ R a b := by
  induction h generalizing idx with
  | nil => simp at ha
  | @cons x y t₁ t₂ h1 _ ih =>
    cases idx with
    | zero =>
      have : x = a := by simpa using ha
      subst this
      exact ⟨y, by simp, h1⟩
    | succ k =>
      have hk : t₁[k]? = some a := by simpa using ha
      obtain ⟨b, hb, hr⟩ := ih k hk
      exact ⟨b, by simpa using hb, hr⟩

theorem forall₂_mem {R : Nat → Nat → Prop} {l₁ l₂ : List Nat} (h : List.Forall₂ R l₁ l₂)
    (b : Nat) (hb : b ∈ l₂) : ∃ a, a ∈ l₁ ∧ R a b := by
  induction h with
  | nil => simp at hb
  | @cons x y t₁ t₂ h1 _ ih =>
    rcases List.mem_cons.1 hb with e | e
    · subst e; exact ⟨x, by simp, h1⟩
    · obtain ⟨a, ha, hr⟩ := ih e
      exact ⟨a, List.mem_cons_of_mem _ ha, hr⟩


/-! ### Counting the emitted entries -/

theorem runs_push_eq (s : sorted_multi_stack_support) (x : Nat) :
    (s.push x).runs.length + (if !s.empty && decide (s.top = x) then 1 else 0)
      = s.runs.length + 1 := by
  cases s with
  | mk runs =>
    cases runs with
    | nil => simp [sorted_multi_stack_support.push, sorted_multi_stack_support.empty]
    | cons q rest =>
      obtain ⟨v, c⟩ := q
      simp only [sorted_multi_stack_support.push, sorted_multi_stack_support.empty,
        sorted_multi_stack_support.top]
      by_cases h : v = x <;> simp [h]

theorem scan_pop_entries (st : cstate) (hne : st.vec_stack.empty = false) :
    (scan_pop st).fc_cnt + (scan_pop st).vec_stack.runs.length
      = st.fc_cnt + st.vec_stack.runs.length := by
  have h := runs_pop _ hne
  rw [scan_pop_fc_cnt, scan_pop_vec_stack]
  omega

theorem flush_pop_entries (st : cstate) (hne : st.vec_stack.empty = false) :
    (flush_pop st).fc_cnt + (flush_pop st).vec_stack.runs.length
      = st.fc_cnt + st.vec_stack.runs.length := by
  have h := runs_pop _ hne
  rw [flush_pop_fc_cnt, flush_pop_vec_stack]
  omega

theorem scan_pops_entries (x fuel : Nat) (st : cstate) :
    (scan_pops x fuel st).fc_cnt + (scan_pops x fuel st).vec_stack.runs.length
      = st.fc_cnt + st.vec_stack.runs.length := by
  induction fuel generalizing st with
  | zero => rfl
  | succ k ih =>
    unfold scan_pops
    split
    · rename_i hc
      have hne : st.vec_stack.empty = false := by
        simp only [Bool.and_eq_true, Bool.not_eq_true'] at hc
        exact hc.1
      rw [ih, scan_pop_entries st hne]
    · rfl

theorem flush_entries (fuel : Nat) (st : cstate) :
    (flush fuel st).fc_cnt + (flush fuel st).vec_stack.runs.length
      = st.fc_cnt + st.vec_stack.runs.length := by
  induction fuel generalizing st with
  | zero => rfl
  | succ k ih =>
    unfold flush
    split
    · rename_i hc
      have hne : st.vec_stack.empty = false := by simpa using hc
      rw [ih, flush_pop_entries st hne]
    · rfl

theorem after_pops_entries (x : Nat) (st : cstate) :
    (after_pops x st).fc_cnt + (after_pops x st).vec_stack.runs.length
      = st.fc_cnt + st.vec_stack.runs.length :=
  scan_pops_entries x _ _

theorem scan_entries (d : Nat) (B : List Nat) (i : Nat) (L : List Nat) (st : cstate) :
    (scan d B i L st).fc_cnt + (scan d B i L st).vec_stack.runs.length
        + dup_pushes d B i L st
      = st.fc_cnt + st.vec_stack.runs.length + L.length := by
  induction L generalizing i st with
  | nil => rfl
  | cons x rest ih =>
    have h1 := ih (i + 1) (scan_body d B i x st)
    have h2 := after_pops_entries x st
    have h3 := runs_push_eq (after_pops x st).vec_stack x
    have h4 : (scan_body d B i x st).fc_cnt = (after_pops x st).fc_cnt := rfl
    have h5 : (scan_body d B i x st).vec_stack = (after_pops x st).vec_stack.push x := rfl
    rw [h4, h5] at h1
    simp only [scan, dup_pushes, List.length_cons]
    omega

theorem dup_pushes_le (d : Nat) (B : List Nat) (i : Nat) (L : List Nat) (st : cstate) :
    dup_pushes d B i L st ≤ L.length := by
  induction L generalizing i st with
  | nil => simp [dup_pushes]
  | cons x rest ih =>
    have h1 := ih (i + 1) (scan_body d B i x st)
    simp only [dup_pushes, List.length_cons]
    split <;> omega

/-- The first position is never pushed onto an equal top: the stack is still empty. -/
theorem dup_pushes_init_lt (d : Nat) (B : List Nat) (x : Nat) (rest : List Nat) (n : Nat) :
    dup_pushes d B 0 (x :: rest) (init n) ≤ rest.length := by
  have h1 := dup_pushes_le d B 1 rest (scan_body d B 0 x (init n))
  have he : (after_pops x (init n)).vec_stack.empty = true := by
    simp [after_pops, init, sorted_multi_stack_support.size, scan_pops,
      sorted_multi_stack_support.empty]
  simp only [dup_pushes, he]
  simpa using h1

/-- The number of emitted entries is n minus the number of pushes onto an equal top. -/
theorem construct_entries (d : Nat) (L B : List Nat) :
    (construct_state d L B).fc_cnt + dup_pushes d B 0 L (init L.length) = L.length := by
  have h1 := scan_entries d B 0 L (init L.length)
  have h2 := flush_entries (scan d B 0 L (init L.length)).vec_stack.size
    (scan d B 0 L (init L.length))
  have he := construct_stack_empty d L B
  have hr : (construct_state d L B).vec_stack.runs = [] := by
    simpa [sorted_multi_stack_support.empty] using he
  have h3 : (init L.length).fc_cnt + (init L.length).vec_stack.runs.length = 0 := by
    simp [init]
  simp only [construct_state] at hr ⊢
  rw [hr] at h2
  simp only [List.length_nil] at h2
  omega


/-! ### How the run-symbol stream enters the reduction -/

theorem scan_body_congr (d : Nat) (B B' : List Nat) (i x : Nat) (st : cstate)
    (h : B.getD i 0 = B'.getD i 0) : scan_body d B i x st = scan_body d B' i x st := by
  simp only [scan_body, h]

/-- The scan reads the run-symbol stream only at the positions it visits. -/
theorem scan_congr (d : Nat) (B B' : List Nat) (i : Nat) (L : List Nat) (st : cstate)
    (h : ∀ j, i ≤ j → j < i + L.length → B.getD j 0 = B'.getD j 0) :
    scan d B i L st = scan d B' i L st := by
  induction L generalizing i st with
  | nil => rfl
  | cons x rest ih =>
    simp only [List.length_cons] at h
    simp only [scan]
    rw [scan_body_congr d B B' i x st (h i (le_refl _) (by omega))]
    exact ih _ _ (fun j h1 h2 => h j (by omega) (by omega))

theorem forget_classify (flag : Bool) (st : cstate) :
    forget_bwt (classify flag st) = classify flag (forget_bwt st) := by
  unfold classify forget_bwt
  simp only []
  split_ifs <;> rfl

theorem forget_scan_pop (st : cstate) : forget_bwt (scan_pop st) = scan_pop (forget_bwt st) := by
  unfold scan_pop classify forget_bwt
  simp only []
  split_ifs <;> rfl

theorem forget_scan_pops (x fuel : Nat) (st : cstate) :
    forget_bwt (scan_pops x fuel st) = scan_pops x fuel (forget_bwt st) := by
  induction fuel generalizing st with
  | zero => rfl
  | succ k ih =>
    have e : (forget_bwt st).vec_stack = st.vec_stack := rfl
    simp only [scan_pops, e]
    split
    · rw [ih, forget_scan_pop]
    · rfl

theorem forget_after_pops (x : Nat) (st : cstate) :
    forget_bwt (after_pops x st) = after_pops x (forget_bwt st) := by
  unfold after_pops
  rw [forget_scan_pops]
  rfl

theorem forget_flush_pop (st : cstate) :
    forget_bwt (flush_pop st) = flush_pop (forget_bwt st) := by
  unfold flush_pop classify forget_bwt
  simp only []
  split_ifs <;> rfl

theorem forget_flush (fuel : Nat) (st : cstate) :
    forget_bwt (flush fuel st) = flush fuel (forget_bwt st) := by
  induction fuel generalizing st with
  | zero => rfl
  | succ k ih =>
    have e : (forget_bwt st).vec_stack = st.vec_stack := rfl
    simp only [flush, e]
    split
    · rw [ih, forget_flush_pop]
    · rfl

theorem forget_scan_body (d : Nat) (B : List Nat) (i x : Nat) (st : cstate) :
    forget_bwt (scan_body d B i x st) =
      { after_pops x (forget_bwt st) with
        is_big_and_not_reducable := (after_pops x (forget_bwt st)).is_big_and_not_reducable.set
          (after_pops x (forget_bwt st)).vec_stack.size
          (push_flag d i x st.last_bwti (B.getD i 0))
        vec_stack := (after_pops x (forget_bwt st)).vec_stack.push x
        pushes := (after_pops x (forget_bwt st)).pushes + 1 } := by
  rw [← forget_after_pops, scan_body_eq, after_pops_last_bwti]
  rfl

theorem push_flag_congr (d i x b c b' c' : Nat) (h : i = 0 ∨ (c = b ↔ c' = b')) :
    push_flag d i x b c = push_flag d i x b' c' := by
  unfold push_flag
  rcases h with h | h
  · subst h; simp
  · have e : decide (b ≠ c) = decide (b' ≠ c') := by
      by_cases h1 : c = b
      · have h2 := h.1 h1
        simp [h1, h2]
      · have h2 : ¬ c' = b' := fun e => h1 (h.2 e)
        have h3 : ¬ b = c := fun e => h1 e.symm
        have h4 : ¬ b' = c' := fun e => h2 e.symm
        simp [h3, h4]
    rw [e]

/-- Two scans over run-symbol streams with the same pattern of equal consecutive symbols
agree on everything but the remembered symbol. -/
theorem scan_same_runs (d : Nat) (B B' : List Nat) (i : Nat) (L : List Nat) (st st' : cstate)
    (hst : forget_bwt st = forget_bwt st')
    (hlast : 1 ≤ i → st.last_bwti = B.getD (i - 1) 0 ∧ st'.last_bwti = B'.getD (i - 1) 0)
    (h : ∀ j, 1 ≤ j → i ≤ j → j < i + L.length →
      (B.getD j 0 = B.getD (j - 1) 0 ↔ B'.getD j 0 = B'.getD (j - 1) 0)) :
    forget_bwt (scan d B i L st) = forget_bwt (scan d B' i L st') := by
  induction L generalizing i st st' with
  | nil => exact hst
  | cons x rest ih =>
    simp only [List.length_cons] at h
    simp only [scan]
    refine ih (i + 1) _ _ ?_ ?_ (fun j h1 h2 h3 => h j h1 (by omega) (by omega))
    · rw [forget_scan_body, forget_scan_body, hst]
      have hf : push_flag d i x st.last_bwti (B.getD i 0)
          = push_flag d i x st'.last_bwti (B'.getD i 0) := by
        apply push_flag_congr
        rcases Nat.eq_zero_or_pos i with h0 | hpos
        · exact Or.inl h0
        · right
          obtain ⟨e1, e2⟩ := hlast hpos
          rw [e1, e2]
          exact h i hpos (le_refl _) (by omega)
      rw [hf]
    · intro _
      rw [Nat.add_sub_cancel]
      exact ⟨rfl, rfl⟩


/-! ## The claims about `operator[]` -/

/-- C2: if the small-tier entries at index_of(i), index_of(lf(i)), ..., index_of(lf^(k-1)(i))
are all 254 and the entry at idx = index_of(lf^k(i)) is 255, then `operator[](i)` returns,
after exactly k LF hops, big_tier[rank_255(small_tier, idx)] - k, where rank_255 counts the 255
entries strictly before idx. The subtraction is the 64-bit unsigned one of the source; it is
the exact difference whenever k does not exceed the anchor value. -/
theorem operator_index_anchor_after_hops (s : _lcp_support_tree2) (cst : cst_type)
    (i k b : Nat) (hcst : s.m_cst = some cst)
    (h254 : ∀ j, j < k → s.m_small_lcp[cst.tlcp_idx (cst.lf^[j] i)]? = some 254)
    (h255 : s.m_small_lcp[cst.tlcp_idx (cst.lf^[k] i)]? = some 255)
    (hb : s.m_big_lcp.data[rank s.m_small_lcp (cst.tlcp_idx (cst.lf^[k] i)) 255]? = some b)
    (hb64 : b < 2 ^ 64) (hk : k < 2 ^ 64) :
    (∀ fuel, k < fuel →
      s.get fuel i = access_result.returned ((b + 2 ^ 64 - k) % 2 ^ 64) k) ∧
    (k ≤ b → (b + 2 ^ 64 - k) % 2 ^ 64 = b - k) := by
  constructor
  · intro fuel hfuel
    have h := access_loop_chain cst s.m_small_lcp s.m_big_lcp k b i 0 fuel h254 h255 hb
      (by omega) hfuel
    simp only [Nat.zero_add] at h
    simp only [_lcp_support_tree2.get, hcst, h]
  · intro hkb
    have e : b + 2 ^ 64 - k = (b - k) + 2 ^ 64 := by omega
    rw [e, Nat.add_mod_right]
    exact Nat.mod_eq_of_lt (by omega)

/-- Witness for C2: in `demo_store` position 0 is one hop away from the anchor 300. -/
theorem operator_index_anchor_after_hops_witness :
    demo_store.get 2 0 = access_result.returned 299 1 := by
  have h := (operator_index_anchor_after_hops demo_store demo_host 0 1 300 rfl
    (by intro j hj; interval_cases j; rfl) rfl rfl (by norm_num) (by norm_num)).1 2
    (by norm_num)
  norm_num at h
  exact h

/-- C3: if the small-tier entry at index_of(i) is a value v <= 253, `operator[](i)` returns
exactly v with zero LF hops, and the result is the same whatever the big tier holds (the big
tier is never read). -/
theorem operator_index_literal (s : _lcp_support_tree2) (cst : cst_type) (i v : Nat)
    (hcst : s.m_cst = some cst) (hv : s.m_small_lcp[cst.tlcp_idx i]? = some v)
    (hle : v ≤ 253) :
    ∀ fuel, 1 ≤ fuel → ∀ big : int_vector,
      ({ s with m_big_lcp := big } : _lcp_support_tree2).get fuel i
        = access_result.returned v 0 := by
  intro fuel hfuel big
  obtain ⟨f, rfl⟩ : ∃ f, fuel = f + 1 := ⟨fuel - 1, by omega⟩
  have hmod : v % 2 ^ 8 = v := Nat.mod_eq_of_lt (by norm_num; omega)
  have hlt : v % 2 ^ 8 < 254 := by rw [hmod]; omega
  simp only [_lcp_support_tree2.get, hcst, access_loop, hv]
  rw [if_pos hlt, hmod]

/-- Witness for C3: position 0 of `literal_store` holds the literal 7. -/
theorem operator_index_literal_witness :
    ({ literal_store with m_big_lcp := ⟨1, []⟩ } : _lcp_support_tree2).get 1 0
      = access_result.returned 7 0 :=
  operator_index_literal literal_store demo_host 0 7 rfl rfl (by norm_num) 1 (le_refl 1)
    ⟨1, []⟩

/-- C4, as stated, fails: on `looping_store` the call `operator[](0)` is still following lf
after every number of iterations; it neither returns nor stops with an error. -/
theorem operator_index_no_hop_limit :
    ¬ ∃ fuel, looping_store.get fuel 0 ≠ access_result.running := by
  rintro ⟨fuel, h⟩
  apply h
  simp only [_lcp_support_tree2.get, looping_store]
  exact (access_loop_running looping_host [254] ⟨1, []⟩ fuel 0 0).2
    (fun j _ => ⟨254, rfl, rfl⟩)

/-- C4, amended: `operator[]` has no hop limit and no consistency error. After any number
`fuel` of iterations the call is still following lf exactly when the store is bound to a host
and every small-tier entry met so far was 254; so it returns precisely when the LF-chain
reaches an entry other than 254. -/
theorem operator_index_running_iff (s : _lcp_support_tree2) (fuel i : Nat) :
    s.get fuel i = access_result.running ↔
      ∃ cst, s.m_cst = some cst ∧
        ∀ j, j < fuel →
          ∃ e, s.m_small_lcp[cst.tlcp_idx (cst.lf^[j] i)]? = some e ∧ e % 2 ^ 8 = 254 := by
  cases hc : s.m_cst with
  | none => simp [_lcp_support_tree2.get, hc]
  | some cst =>
    simp only [_lcp_support_tree2.get, hc, Option.some.injEq, exists_eq_left']
    exact access_loop_running cst s.m_small_lcp s.m_big_lcp fuel i 0


/-! ## The claims about `construct_first_child_and_lf_lcp` -/

theorem scan_pop_sml_length (st : cstate) :
    (scan_pop st).sml_lcp_out.length
      = st.sml_lcp_out.length + (if st.vec_stack.pop.1 then 1 else 0) := by
  unfold scan_pop classify
  simp only []
  split_ifs <;> simp

theorem flush_pop_sml_length (st : cstate) :
    (flush_pop st).sml_lcp_out.length
      = st.sml_lcp_out.length + (if st.vec_stack.pop.1 then 1 else 0) := by
  unfold flush_pop classify
  simp only []
  split_ifs <;> simp

/-- C5: the big tier has exactly as many entries as the small-tier stream has 255 markers,
at most n; it lists, in order, the classified values whose entry is 255; and whenever
small_tier[idx] = 255, rank_255(small_tier, idx) is a valid big-tier index and the big tier
holds there the value classified at idx. (`hi` is the helper `bits::hi`, assumed to have the
bit-length property.) -/
theorem big_tier_matches_markers (hi : Nat → Nat) (hhi : bit_length_like hi)
    (d : Nat) (L B : List Nat) :
    (construct_first_child_and_lf_lcp hi d L B).2.data.length
        = (construct_first_child_and_lf_lcp hi d L B).1.count 255 ∧
    (construct_first_child_and_lf_lcp hi d L B).2.data.length ≤ L.length ∧
    (construct_first_child_and_lf_lcp hi d L B).2.data
        = big_of (construct_state d L B).classified
            (construct_first_child_and_lf_lcp hi d L B).1 ∧
    (construct_state d L B).classified.length
        = (construct_first_child_and_lf_lcp hi d L B).1.length ∧
    ∀ idx, (construct_first_child_and_lf_lcp hi d L B).1[idx]? = some 255 →
      rank (construct_first_child_and_lf_lcp hi d L B).1 idx 255
          < (construct_first_child_and_lf_lcp hi d L B).2.data.length ∧
      ∃ y, (construct_state d L B).classified[idx]? = some y ∧
        (construct_first_child_and_lf_lcp hi d L B).2.data[
          rank (construct_first_child_and_lf_lcp hi d L B).1 idx 255]? = some y := by
  have hs := stream_inv_construct d L B
  have hdata := fill_big_data hi hhi _ hs
  have hlen := hs.entries.length_eq
  have hcount := big_of_length _ _ hlen
  have hn := construct_fc_cnt_le d L B
  simp only [construct_first_child_and_lf_lcp, hdata]
  refine ⟨by rw [hs.big]; exact hcount, ?_, hs.big, hlen, ?_⟩
  · rw [hs.big, hcount]
    have := List.count_le_length 255 (construct_state d L B).sml_lcp_out
    have := hs.cnt
    omega
  · intro idx hidx
    have hr := big_of_rank _ _ hlen idx hidx
    obtain ⟨hlt, _⟩ := List.getElem?_eq_some.1 hidx
    have hlt2 : idx < (construct_state d L B).classified.length := by omega
    have hy : (construct_state d L B).classified[idx]?
        = some ((construct_state d L B).classified[idx]) := List.getElem?_eq_getElem hlt2
    rw [hs.big, hr, hy]
    refine ⟨?_, _, rfl, rfl⟩
    have h2 : (big_of (construct_state d L B).classified
        (construct_state d L B).sml_lcp_out)[rank (construct_state d L B).sml_lcp_out idx 255]?
          = some ((construct_state d L B).classified[idx]) := by rw [hr, hy]
    exact (List.getElem?_eq_some.1 h2).1

/-- Witness for C5, at the helper `Nat.log2`. -/
theorem big_tier_matches_markers_witness :
    (construct_first_child_and_lf_lcp Nat.log2 7 [0, 300, 300, 0, 5, 5, 400, 2]
        [1, 1, 2, 2, 3, 3, 3, 3]).2.data.length
      = (construct_first_child_and_lf_lcp Nat.log2 7 [0, 300, 300, 0, 5, 5, 400, 2]
        [1, 1, 2, 2, 3, 3, 3, 3]).1.count 255 :=
  (big_tier_matches_markers Nat.log2 (fun _ => Nat.lt_log2_self) 7
    [0, 300, 300, 0, 5, 5, 400, 2] [1, 1, 2, 2, 3, 3, 3, 3]).1

/-- C6, as stated, fails: on the input LCP = [0,1,3,1,2] with run symbols [a,a,b,a,a] and
d = 2 (n = 5) the small-tier stream is [3,2,1,0], four entries. -/
theorem small_tier_shorter_than_input :
    (construct_first_child_and_lf_lcp Nat.log2 2 [0, 1, 3, 1, 2] [1, 1, 2, 1, 1]).1
        = [3, 2, 1, 0] ∧
    (construct_first_child_and_lf_lcp Nat.log2 2 [0, 1, 3, 1, 2] [1, 1, 2, 1, 1]).1.length
        ≠ [0, 1, 3, 1, 2].length := by
  decide

/-- C6, amended: a pop event appends one small-tier entry exactly when it removes the last
copy of its value (in the scan and in the final flush), so the stream has `fc_cnt` entries,
one per such pop, which is at most n, while the number of pop events is n. -/
theorem small_tier_length (hi : Nat → Nat) (d : Nat) (L B : List Nat) :
    (∀ st : cstate, (scan_pop st).sml_lcp_out.length
        = st.sml_lcp_out.length + (if st.vec_stack.pop.1 then 1 else 0)) ∧
    (∀ st : cstate, (flush_pop st).sml_lcp_out.length
        = st.sml_lcp_out.length + (if st.vec_stack.pop.1 then 1 else 0)) ∧
    (construct_first_child_and_lf_lcp hi d L B).1.length = (construct_state d L B).fc_cnt ∧
    (construct_first_child_and_lf_lcp hi d L B).1.length ≤ L.length ∧
    (construct_state d L B).pops = L.length := by
  have hs := stream_inv_construct d L B
  have hn := construct_fc_cnt_le d L B
  refine ⟨scan_pop_sml_length, flush_pop_sml_length, hs.cnt, ?_, construct_pops d L B⟩
  simp only [construct_first_child_and_lf_lcp, hs.cnt]
  exact hn


/-- C7: when all raw LCP values are < 254, the big tier is empty and the small-tier stream
contains no 254 and no 255 entry: it is the list of the classified (popped) values
themselves, each of them a value of the input. -/
theorem small_values_only (hi : Nat → Nat) (d : Nat) (L B : List Nat)
    (hL : ∀ x ∈ L, x < 254) :
    (construct_first_child_and_lf_lcp hi d L B).2.data = [] ∧
    (∀ v ∈ (construct_first_child_and_lf_lcp hi d L B).1, v ≠ 254 ∧ v ≠ 255 ∧ v ∈ L) ∧
    (construct_first_child_and_lf_lcp hi d L B).1 = (construct_state d L B).classified := by
  have hs := stream_inv_construct d L B
  have hv := vals_inv_construct (fun x => x < 254 ∧ x ∈ L) d L B (fun x hx => ⟨hL x hx, hx⟩)
  have heq : (construct_state d L B).sml_lcp_out = (construct_state d L B).classified :=
    forall₂_entry_small _ _ hs.entries (fun y hy => (hv.out y hy).1)
  have hno : ∀ v ∈ (construct_state d L B).sml_lcp_out, v ≠ 254 ∧ v ≠ 255 ∧ v ∈ L := by
    intro v hvm
    rw [heq] at hvm
    have := hv.out v hvm
    exact ⟨by omega, by omega, this.2⟩
  have hcnt : (construct_state d L B).sml_lcp_out.count 255 = 0 :=
    List.count_eq_zero.2 (fun hm => (hno 255 hm).2.1 rfl)
  have hbig : (construct_state d L B).fc_cnt_big = 0 := by
    rw [← hs.cnt_big, hs.big, big_of_length _ _ hs.entries.length_eq, hcnt]
  refine ⟨?_, hno, heq⟩
  simp [construct_first_child_and_lf_lcp, fill_big, hbig, read_big]

/-- Witness for C7: the input LCP = [0,1,3,1,2] with run symbols [a,a,b,a,a] and d = 2. -/
theorem small_values_only_witness :
    (construct_first_child_and_lf_lcp Nat.log2 2 [0, 1, 3, 1, 2] [1, 1, 2, 1, 1]).2.data = [] :=
  (small_values_only Nat.log2 2 [0, 1, 3, 1, 2] [1, 1, 2, 1, 1] (by decide)).1

/-- C8: for a value x >= 254 (a 64-bit value), any run symbol b and any d, the one-element
input [x] yields the small-tier stream [255] and the big tier [x]; a query whose index maps to
that entry returns x with zero LF hops. (`hi` is the helper `bits::hi`, assumed to have the
bit-length property.) -/
theorem single_large_value (hi : Nat → Nat) (hhi : bit_length_like hi)
    (d x b : Nat) (hx : 254 ≤ x) (hx64 : x < 2 ^ 64) :
    construct_first_child_and_lf_lcp hi d [x] [b] = ([255], ⟨hi x + 1, [x]⟩) ∧
    ∀ (cst : cst_type) (i fuel : Nat), cst.tlcp_idx i = 0 → 1 ≤ fuel →
      (_lcp_support_tree2.build hi d [x] [b] (some cst)).get fuel i
        = access_result.returned x 0 := by
  have hxM : x > M - 2 := by simp [M]; omega
  have hflag : push_flag d 0 x 0 b = true := by simp [push_flag, hxM]
  have hst : construct_state d [x] [b] =
      { vec_stack := ⟨[]⟩, is_big_and_not_reducable := [true],
        is_one_big_and_not_reducable := false, sml_lcp_out := [255], big_lcp_out := [x],
        fc_cnt := 1, fc_cnt_big := 1, fc_cnt_big2 := 0, y := x, max_lcp := x, last_bwti := b,
        classified := [x], pushes := 1, pops := 1 } := by
    have hx0 : x > 0 := by omega
    simp [construct_state, scan, scan_body, scan_pops, init, hflag,
      sorted_multi_stack_support.size, sorted_multi_stack_support.push, flush, flush_pop,
      sorted_multi_stack_support.empty, sorted_multi_stack_support.pop,
      sorted_multi_stack_support.top, classify, M]
    have h253 : 253 < x := by omega
    rw [if_pos h253, if_pos hx0]
  have hmod : x % 2 ^ (hi x + 1) = x := Nat.mod_eq_of_lt (hhi x)
  have hout : construct_first_child_and_lf_lcp hi d [x] [b] = ([255], ⟨hi x + 1, [x]⟩) := by
    simp [construct_first_child_and_lf_lcp, hst, fill_big, read_big, hmod]
  refine ⟨hout, ?_⟩
  intro cst i fuel hidx hfuel
  obtain ⟨f, rfl⟩ : ∃ f, fuel = f + 1 := ⟨fuel - 1, by omega⟩
  have hxm : (x + 2 ^ 64 - 0) % 2 ^ 64 = x := by
    rw [Nat.sub_zero, Nat.add_mod_right]; exact Nat.mod_eq_of_lt hx64
  simp only [_lcp_support_tree2.get, _lcp_support_tree2.build, hout, access_loop, hidx]
  simp only [rank, List.take_zero, List.count_nil]
  norm_num
  norm_num at hx64
  exact hx64

/-- Witness for C8, at the helper `Nat.log2`: the input [300]. -/
theorem single_large_value_witness :
    construct_first_child_and_lf_lcp Nat.log2 16 [300] [1]
      = ([255], ⟨Nat.log2 300 + 1, [300]⟩) :=
  (single_large_value Nat.log2 (fun _ => Nat.lt_log2_self) 16 300 1 (by norm_num)
    (by norm_num)).1

/-- C9: every value y written to the big tier satisfies y <= max_lcp < 2^width, where width
is the bit width set on the big tier, so the width-limited array holds exactly the values
written (reading a value back returns it unchanged). (`hi` is the helper `bits::hi`, assumed
to have the bit-length property.) -/
theorem big_tier_values_fit (hi : Nat → Nat) (hhi : bit_length_like hi)
    (d : Nat) (L B : List Nat) :
    (∀ y ∈ (construct_state d L B).big_lcp_out, y ≤ (construct_state d L B).max_lcp) ∧
    (construct_state d L B).max_lcp
      < 2 ^ (construct_first_child_and_lf_lcp hi d L B).2.width ∧
    (construct_first_child_and_lf_lcp hi d L B).2.data = (construct_state d L B).big_lcp_out ∧
    ∀ y ∈ (construct_first_child_and_lf_lcp hi d L B).2.data,
      y ≤ (construct_state d L B).max_lcp ∧
      y % 2 ^ (construct_first_child_and_lf_lcp hi d L B).2.width = y := by
  have hs := stream_inv_construct d L B
  have hdata := fill_big_data hi hhi _ hs
  have hmax := (le_foldl_max (construct_state d L B).big_lcp_out 0).2
  rw [← hs.max] at hmax
  have hw : (construct_state d L B).max_lcp < 2 ^ (hi (construct_state d L B).max_lcp + 1) :=
    hhi _
  refine ⟨hmax, hw, hdata, ?_⟩
  intro y hy
  have hy2 : y ∈ (construct_state d L B).big_lcp_out := by
    simpa [construct_first_child_and_lf_lcp, hdata] using hy
  exact ⟨hmax y hy2, Nat.mod_eq_of_lt (lt_of_le_of_lt (hmax y hy2) hw)⟩

/-- Witness for C9, at the helper `Nat.log2`. -/
theorem big_tier_values_fit_witness :
    (construct_first_child_and_lf_lcp Nat.log2 7 [0, 300, 300, 0, 5, 5, 400, 2]
        [1, 1, 2, 2, 3, 3, 3, 3]).2.data
      = (construct_state 7 [0, 300, 300, 0, 5, 5, 400, 2] [1, 1, 2, 2, 3, 3, 3, 3]).big_lcp_out :=
  (big_tier_values_fit Nat.log2 (fun _ => Nat.lt_log2_self) 7
    [0, 300, 300, 0, 5, 5, 400, 2] [1, 1, 2, 2, 3, 3, 3, 3]).2.2.1

/-- C10: the bit width set on the big tier is hi(max) + 1 (`hi` being the helper `bits::hi`,
the spec's "bitlength"), where max is the running maximum recorded during classification,
which is the largest value stored in the big tier (0 for an empty big tier). -/
theorem big_tier_width (hi : Nat → Nat) (hhi : bit_length_like hi)
    (d : Nat) (L B : List Nat) :
    (construct_first_child_and_lf_lcp hi d L B).2.width
      = hi ((construct_first_child_and_lf_lcp hi d L B).2.data.foldl max 0) + 1 ∧
    (construct_state d L B).max_lcp
      = (construct_first_child_and_lf_lcp hi d L B).2.data.foldl max 0 ∧
    (∀ y ∈ (construct_first_child_and_lf_lcp hi d L B).2.data,
      y ≤ (construct_first_child_and_lf_lcp hi d L B).2.data.foldl max 0) ∧
    ((construct_first_child_and_lf_lcp hi d L B).2.data ≠ [] →
      (construct_first_child_and_lf_lcp hi d L B).2.data.foldl max 0
        ∈ (construct_first_child_and_lf_lcp hi d L B).2.data) := by
  have hs := stream_inv_construct d L B
  have hdata := fill_big_data hi hhi _ hs
  simp only [construct_first_child_and_lf_lcp, hdata]
  refine ⟨?_, hs.max, (le_foldl_max _ 0).2, foldl_max_mem _⟩
  simp only [fill_big, hs.max]

/-- Witness for C10, at the helper `Nat.log2`. -/
theorem big_tier_width_witness :
    (construct_first_child_and_lf_lcp Nat.log2 7 [0, 300, 300, 0, 5, 5, 400, 2]
        [1, 1, 2, 2, 3, 3, 3, 3]).2.width
      = Nat.log2 ((construct_first_child_and_lf_lcp Nat.log2 7 [0, 300, 300, 0, 5, 5, 400, 2]
        [1, 1, 2, 2, 3, 3, 3, 3]).2.data.foldl max 0) + 1 :=
  (big_tier_width Nat.log2 (fun _ => Nat.lt_log2_self) 7
    [0, 300, 300, 0, 5, 5, 400, 2] [1, 1, 2, 2, 3, 3, 3, 3]).1


/-! ## Persistence and equality -/

theorem small_codec_self_describing : self_describing small_codec := by
  intro a rest
  simp [small_codec]

theorem big_codec_self_describing : self_describing big_codec := by
  intro a rest
  simp [big_codec]

/-- C11: round trip. For tier serializers that are self-describing, `load` applied to the
bytes written by `serialize(S)` (small tier first, then big tier, read back in the same order)
consumes exactly those bytes and yields the store with the tiers of S and the host given to
`load`; the reported byte count is the number of bytes written; and the store S' loaded with
the host of S satisfies S' == S and returns what S returns for every i. -/
theorem load_serialize (cs : tier_codec (List Nat)) (cb : tier_codec int_vector)
    (hs : self_describing cs) (hb : self_describing cb) (S : _lcp_support_tree2) :
    (∀ (cst : Option cst_type) (rest : List Nat),
      _lcp_support_tree2.load cs cb ((S.serialize cs cb []).1 ++ rest) cst
        = some ({ S with m_cst := cst }, rest)) ∧
    (S.serialize cs cb []).2 = (S.serialize cs cb []).1.length ∧
    (∀ (cst : Option cst_type) (S' : _lcp_support_tree2) (rest : List Nat),
      _lcp_support_tree2.load cs cb (S.serialize cs cb []).1 cst = some (S', rest) →
        S'.eq S = true ∧ S.eq S' = true ∧
        (cst = S.m_cst → ∀ fuel i, S'.get fuel i = S.get fuel i)) := by
  have hload : ∀ (cst : Option cst_type) (rest : List Nat),
      _lcp_support_tree2.load cs cb ((S.serialize cs cb []).1 ++ rest) cst
        = some ({ S with m_cst := cst }, rest) := by
    intro cst rest
    have h1 : cs.read (cs.write S.m_small_lcp ++ (cb.write S.m_big_lcp ++ rest))
        = some (S.m_small_lcp, cb.write S.m_big_lcp ++ rest) := hs _ _
    have h2 : cb.read (cb.write S.m_big_lcp ++ rest) = some (S.m_big_lcp, rest) := hb _ _
    simp [_lcp_support_tree2.load, _lcp_support_tree2.serialize, h1, h2]
  refine ⟨hload, by simp [_lcp_support_tree2.serialize], ?_⟩
  intro cst S' rest hS'
  have h0 := hload cst []
  rw [List.append_nil, hS'] at h0
  have hS : S' = { S with m_cst := cst } := by
    have := Option.some.inj h0
    exact congrArg Prod.fst this
  subst hS
  refine ⟨by simp [_lcp_support_tree2.eq], by simp [_lcp_support_tree2.eq], ?_⟩
  intro hc fuel i
  subst hc
  rfl

/-- Witness for C11: the length-prefixed tier blocks, on `demo_store`. -/
theorem load_serialize_witness :
    _lcp_support_tree2.load small_codec big_codec
        ((demo_store.serialize small_codec big_codec []).1 ++ []) (some looping_host)
      = some ({ demo_store with m_cst := some looping_host }, []) :=
  (load_serialize small_codec big_codec small_codec_self_describing
    big_codec_self_describing demo_store).1 (some looping_host) []

/-- C12: equality is structural and ignores the host: a == b holds iff the small tiers are
equal and the big tiers are equal, whatever host pointers the two stores hold, and a != b is
the negation of a == b. -/
theorem equality_ignores_host (a b : _lcp_support_tree2) :
    (a.eq b = true ↔ a.m_small_lcp = b.m_small_lcp ∧ a.m_big_lcp = b.m_big_lcp) ∧
    (∀ c₁ c₂ : Option cst_type,
      ({ a with m_cst := c₁ } : _lcp_support_tree2).eq { b with m_cst := c₂ } = a.eq b) ∧
    a.ne b = !(a.eq b) ∧
    (a.ne b = true ↔ ¬ (a.eq b = true)) := by
  refine ⟨?_, ?_, rfl, ?_⟩
  · simp [_lcp_support_tree2.eq]
  · intro c₁ c₂; rfl
  · simp [_lcp_support_tree2.ne]


/-! ## The claims about the stack discipline and the anchor flags -/

theorem getD_set_self (l : List Bool) (n : Nat) (a : Bool) (h : n < l.length) :
    (l.set n a).getD n false = a := by
  simp [List.getD, h]

/-- C13, as stated, fails: with d = 7 and equal run symbols, position 1 of LCP = [0,301] is
flagged although 1 is not a multiple of 7 (301 is), and position 7 of LCP = [0,0,0,0,0,0,0,300]
is not flagged although 7 is a multiple of 7 (300 is not). -/
theorem anchor_flag_not_by_index :
    ((state_at 7 [0, 301] [1, 1] 2).is_big_and_not_reducable.getD
        (after_pops 301 (state_at 7 [0, 301] [1, 1] 1)).vec_stack.size false = true ∧
      ¬ (254 ≤ 301 ∧ (1 = 0 ∨ [1, 1].getD 1 0 ≠ [1, 1].getD 0 0 ∨ 1 % 7 = 0))) ∧
    ((state_at 7 [0, 0, 0, 0, 0, 0, 0, 300] [1, 1, 1, 1, 1, 1, 1, 1] 8).is_big_and_not_reducable.getD
        (after_pops 300
          (state_at 7 [0, 0, 0, 0, 0, 0, 0, 300] [1, 1, 1, 1, 1, 1, 1, 1] 7)).vec_stack.size
        false = false ∧
      (254 ≤ 300 ∧ (7 = 0 ∨ [1, 1, 1, 1, 1, 1, 1, 1].getD 7 0 ≠ [1, 1, 1, 1, 1, 1, 1, 1].getD 6 0
        ∨ 7 % 7 = 0))) := by
  decide

/-- C13, amended: the anchor flag recorded when position i with value x is pushed (the bit
at the depth the stack has just before the push) is true iff x >= 254 and (i = 0, or the run
symbol at i differs from the run symbol at i-1, or x mod d = 0): the periodic sampling is on
the value x being a multiple of the sampling density d. -/
theorem anchor_flag_at_push (d : Nat) (L B : List Nat) (i x : Nat) (hx : L[i]? = some x) :
    ((state_at d L B (i + 1)).is_big_and_not_reducable.getD
        (after_pops x (state_at d L B i)).vec_stack.size false = true ↔
      254 ≤ x ∧ (i = 0 ∨ B.getD i 0 ≠ B.getD (i - 1) 0 ∨ x % d = 0)) ∧
    (state_at d L B (i + 1)).vec_stack.size
      = (after_pops x (state_at d L B i)).vec_stack.size + 1 := by
  obtain ⟨hlt, _⟩ := List.getElem?_eq_some.1 hx
  have hslot := after_pops_size_lt d L B i x hlt
  rw [state_at_succ d L B i x hx, scan_body_eq]
  refine ⟨?_, size_push _ x⟩
  simp only []
  rw [getD_set_self _ _ _ (by rw [after_pops_flags, state_at_flags_length]; exact hslot)]
  rw [after_pops_last_bwti]
  cases i with
  | zero => simp [push_flag, M]; omega
  | succ j =>
    rw [state_at_last_bwti d L B j (by omega)]
    simp only [push_flag, M, Nat.add_sub_cancel]
    simp only [Bool.and_eq_true, Bool.or_eq_true, decide_eq_true_eq]
    constructor
    · rintro ⟨h1, h2⟩
      refine ⟨by omega, ?_⟩
      rcases h2 with (h2 | h2) | h2
      · omega
      · exact Or.inr (Or.inl (fun e => h2 e.symm))
      · exact Or.inr (Or.inr h2)
    · rintro ⟨h1, h2⟩
      refine ⟨by omega, ?_⟩
      rcases h2 with h2 | h2 | h2
      · omega
      · exact Or.inl (Or.inr (fun e => h2 e.symm))
      · exact Or.inr h2

/-- Witness for C13 (amended): position 1 of LCP = [0,301] with d = 7. -/
theorem anchor_flag_at_push_witness :
    (state_at 7 [0, 301] [1, 1] 2).vec_stack.size
      = (after_pops 301 (state_at 7 [0, 301] [1, 1] 1)).vec_stack.size + 1 :=
  (anchor_flag_at_push 7 [0, 301] [1, 1] 1 301 rfl).2

/-- C16: throughout the reduction the stack is non-decreasing from bottom to top. When the
value x of position i is pushed, the inner loop has popped every strictly greater entry, so
the stack is empty or x >= top(); the stack is sorted before the push, after it (the push
puts x on top), and at every step of the final flush. -/
theorem stack_sorted_at_every_push (d : Nat) (L B : List Nat) (i x : Nat)
    (hx : L[i]? = some x) :
    ((after_pops x (state_at d L B i)).vec_stack.empty = true ∨
      (after_pops x (state_at d L B i)).vec_stack.top ≤ x) ∧
    List.Pairwise (· ≤ ·) (after_pops x (state_at d L B i)).vec_stack.vals ∧
    (state_at d L B (i + 1)).vec_stack.vals
      = (after_pops x (state_at d L B i)).vec_stack.vals ++ [x] ∧
    List.Pairwise (· ≤ ·) (state_at d L B (i + 1)).vec_stack.vals ∧
    ∀ fuel, List.Pairwise (· ≤ ·)
      (flush fuel (scan d B 0 L (init L.length))).vec_stack.vals := by
  refine ⟨after_pops_exit x _ (state_at_stack_inv d L B i),
    vals_sorted _ (sorted_after_pops x _ (state_at_sorted d L B i)), ?_,
    vals_sorted _ (state_at_sorted d L B (i + 1)), ?_⟩
  · rw [state_at_succ d L B i x hx, scan_body_eq]
    exact vals_push _ x
  · intro fuel
    exact vals_sorted _ (sorted_flush fuel _
      (sorted_scan d B 0 L _ (sorted_init _) (stack_inv_init _)))

/-- Witness for C16: position 3 of LCP = [0,1,3,1,2], where the value 3 is popped before the
second 1 is pushed. -/
theorem stack_sorted_at_every_push_witness :
    (state_at 2 [0, 1, 3, 1, 2] [1, 1, 2, 1, 1] 4).vec_stack.vals
      = (after_pops 1 (state_at 2 [0, 1, 3, 1, 2] [1, 1, 2, 1, 1] 3)).vec_stack.vals ++ [1] :=
  (stack_sorted_at_every_push 2 [0, 1, 3, 1, 2] [1, 1, 2, 1, 1] 3 1 rfl).2.2.1

/-- C17: for every input of length n the reduction performs exactly n push events and
exactly n pop events (every removed copy counted), and the stack is empty when the final flush
ends. -/
theorem pushes_and_pops (d : Nat) (L B : List Nat) :
    (construct_state d L B).pushes = L.length ∧
    (construct_state d L B).pops = L.length ∧
    (construct_state d L B).vec_stack.empty = true ∧
    (construct_state d L B).vec_stack.size = 0 := by
  have he := construct_stack_empty d L B
  have hr : (construct_state d L B).vec_stack.runs = [] := by
    simpa [sorted_multi_stack_support.empty] using he
  exact ⟨construct_pushes d L B, construct_pops d L B, he,
    by simp [sorted_multi_stack_support.size, hr]⟩


/-! ## The claims about sampling and about the final flush -/

/-- C14: every value y >= 254 with y mod d = 0 is sampled. Whenever the reduction emits the
entry for such a value, in the scan or in the final flush, the entry is 255, never 254, and
the big tier holds y at the rank of that entry; with d = 1 no 254 entry is ever emitted.
(`hi` is the helper `bits::hi`, assumed to have the bit-length property.) -/
theorem sampled_values_are_stored (hi : Nat → Nat) (hhi : bit_length_like hi)
    (d : Nat) (L B : List Nat) :
    (∀ idx y, (construct_state d L B).classified[idx]? = some y → 254 ≤ y → y % d = 0 →
      (construct_first_child_and_lf_lcp hi d L B).1[idx]? = some 255 ∧
      (construct_first_child_and_lf_lcp hi d L B).2.data[
        rank (construct_first_child_and_lf_lcp hi d L B).1 idx 255]? = some y) ∧
    (d = 1 → ∀ v ∈ (construct_first_child_and_lf_lcp hi d L B).1, v ≠ 254) := by
  have hs := stream_inv_construct d L B
  have hm := sample_inv_construct d L B
  have hdata := fill_big_data hi hhi _ hs
  simp only [construct_first_child_and_lf_lcp, hdata]
  constructor
  · intro idx y hy h254 hmod
    obtain ⟨b, hb, hr⟩ := forall₂_get hm.out idx y hy
    have hb255 : b = 255 := hr h254 hmod
    subst hb255
    refine ⟨hb, ?_⟩
    rw [hs.big, big_of_rank _ _ hs.entries.length_eq idx hb, hy]
  · intro hd v hv
    subst hd
    obtain ⟨y, _, he, hsm⟩ := forall₂_mem (forall₂_and hs.entries hm.out) v hv
    by_cases hy : y ≤ 253
    · have : v = y := by simpa [entry_ok, hy] using he
      omega
    · have : v = 255 := hsm (by omega) (Nat.mod_one y)
      omega

/-- Witness for C14, at the helper `Nat.log2`: with d = 1 the stream has no 254 entry. -/
theorem sampled_values_are_stored_witness :
    ¬ (254 ∈ (construct_first_child_and_lf_lcp Nat.log2 1 [0, 300, 300, 0, 5, 5, 400, 2]
        [1, 1, 2, 2, 3, 3, 3, 3]).1) :=
  fun h => (sampled_values_are_stored Nat.log2 (fun _ => Nat.lt_log2_self) 1
    [0, 300, 300, 0, 5, 5, 400, 2] [1, 1, 2, 2, 3, 3, 3, 3]).2 rfl 254 h rfl


/-! ## The claims about the final flush, the run symbols, and the entry count -/

/-- C15 fails on the code. On the input of length 301 made of 299 ones followed by 300, 300
(all values >= 1), with d = 7 and run symbols that differ only at the last position, the
final flush emits 254 for the value 300 and leaves the big tier empty, because it reads only
the flag of the bottom copy; on the same input extended by a trailing 0 the pops made in the
scan combine the flags of both copies, emit 255 and store 300. The two streams differ in
their first entry and the two big tiers differ. -/
theorem flush_differs_from_scan_pops :
    (∀ x ∈ List.replicate 299 1 ++ [300, 300], 1 ≤ x) ∧
    construct_first_child_and_lf_lcp Nat.log2 7
        (List.replicate 299 1 ++ [300, 300]) (List.replicate 300 1 ++ [2])
      = ([254, 1], ⟨1, []⟩) ∧
    construct_first_child_and_lf_lcp Nat.log2 7
        ((List.replicate 299 1 ++ [300, 300]) ++ [0]) ((List.replicate 300 1 ++ [2]) ++ [2])
      = ([255, 1, 0], ⟨9, [300]⟩) := by
  decide!

/-- C18: the run-symbol stream influences the reduction only through the equality of
consecutive symbols: two symbol streams B, B' of length n with (B[i] = B[i-1]) iff
(B'[i] = B'[i-1]) for all 1 <= i < n give the same small-tier stream and the same big tier
(the symbol at position 0 never matters). -/
theorem run_symbols_only_through_runs (hi : Nat → Nat) (d : Nat) (L B B' : List Nat)
    (hB : B.length = L.length) (hB' : B'.length = L.length)
    (h : ∀ i, 1 ≤ i → i < L.length → (B[i]? = B[i - 1]? ↔ B'[i]? = B'[i - 1]?)) :
    construct_first_child_and_lf_lcp hi d L B = construct_first_child_and_lf_lcp hi d L B' := by
  have hget : ∀ (C : List Nat), C.length = L.length → ∀ i, 1 ≤ i → i < L.length →
      (C[i]? = C[i - 1]? ↔ C.getD i 0 = C.getD (i - 1) 0) := by
    intro C hC i h1 h2
    have e1 : C[i]? = some C[i] := List.getElem?_eq_getElem (by omega)
    have e2 : C[i - 1]? = some C[i - 1] := List.getElem?_eq_getElem (by omega)
    simp [List.getD, e1, e2]
  have hscan := scan_same_runs d B B' 0 L (init L.length) (init L.length) rfl
    (fun h0 => absurd h0 (by omega))
    (fun j h1 _ h3 => by
      rw [← hget B hB j h1 (by omega), ← hget B' hB' j h1 (by omega)]
      exact h j h1 (by omega))
  have hsize : (scan d B 0 L (init L.length)).vec_stack
      = (scan d B' 0 L (init L.length)).vec_stack := by
    have t := congrArg cstate.vec_stack hscan
    exact t
  have hfin : forget_bwt (construct_state d L B) = forget_bwt (construct_state d L B') := by
    simp only [construct_state]
    rw [forget_flush, forget_flush, hscan, hsize]
  have e1 : (construct_state d L B).sml_lcp_out = (construct_state d L B').sml_lcp_out := by
    have t := congrArg cstate.sml_lcp_out hfin
    exact t
  have e2 : (construct_state d L B).big_lcp_out = (construct_state d L B').big_lcp_out := by
    have t := congrArg cstate.big_lcp_out hfin
    exact t
  have e3 : (construct_state d L B).max_lcp = (construct_state d L B').max_lcp := by
    have t := congrArg cstate.max_lcp hfin
    exact t
  have e4 : (construct_state d L B).fc_cnt_big = (construct_state d L B').fc_cnt_big := by
    have t := congrArg cstate.fc_cnt_big hfin
    exact t
  have e5 : (construct_state d L B).y = (construct_state d L B').y := by
    have t := congrArg cstate.y hfin
    exact t
  simp only [construct_first_child_and_lf_lcp, fill_big, e1, e2, e3, e4, e5]

/-- Witness for C18: the run symbols [1,1,2,1,1] and [7,7,3,5,5] have the same runs. -/
theorem run_symbols_only_through_runs_witness :
    construct_first_child_and_lf_lcp Nat.log2 2 [0, 1, 300, 1, 2] [1, 1, 2, 1, 1]
      = construct_first_child_and_lf_lcp Nat.log2 2 [0, 1, 300, 1, 2] [7, 7, 3, 5, 5] :=
  run_symbols_only_through_runs Nat.log2 2 [0, 1, 300, 1, 2] [1, 1, 2, 1, 1] [7, 7, 3, 5, 5]
    rfl rfl (by
      intro i h1 h2
      have h3 : i < 5 := h2
      interval_cases i <;> decide)

/-- C19, as stated, fails: with a raw LCP stream of length 2 and a run-symbol stream of
length 3 the construction produces a store, the one it produces for the first two symbols. -/
theorem mismatched_lengths_build_a_store :
    [0, 1].length ≠ [1, 1, 5].length ∧
    construct_first_child_and_lf_lcp Nat.log2 2 [0, 1] [1, 1, 5] = ([1, 0], ⟨1, []⟩) ∧
    construct_first_child_and_lf_lcp Nat.log2 2 [0, 1] [1, 1] = ([1, 0], ⟨1, []⟩) := by
  decide!

/-- C19, amended: the construction does not compare the lengths of the two streams. It takes
n from the raw LCP stream and reads the run-symbol stream at the positions 0..n-1 only: a
run-symbol stream longer than n gives the store its first n symbols give. -/
theorem longer_symbol_stream_is_cut (hi : Nat → Nat) (d : Nat) (L B : List Nat)
    (h : L.length ≤ B.length) :
    construct_first_child_and_lf_lcp hi d L B
      = construct_first_child_and_lf_lcp hi d L (B.take L.length) := by
  have hscan : scan d B 0 L (init L.length) = scan d (B.take L.length) 0 L (init L.length) := by
    apply scan_congr
    intro j _ hj
    have hj1 : j < B.length := by omega
    have hj2 : j < (B.take L.length).length := by simp; omega
    simp [List.getD, List.getElem?_eq_getElem hj1, List.getElem?_eq_getElem hj2]
  simp only [construct_first_child_and_lf_lcp, construct_state, hscan]

/-- Witness for C19 (amended): a run-symbol stream with one symbol too many. -/
theorem longer_symbol_stream_is_cut_witness :
    construct_first_child_and_lf_lcp Nat.log2 2 [0, 1] [1, 1, 5]
      = construct_first_child_and_lf_lcp Nat.log2 2 [0, 1] ([1, 1, 5].take [0, 1].length) :=
  longer_symbol_stream_is_cut Nat.log2 2 [0, 1] [1, 1, 5] (by decide)

/-- C20: a pop appends an entry exactly when it removes the last copy of a value, so the
number of small-tier entries is the counter `fc_cnt`; it is n minus the number of positions
whose value equals the stack top at the moment it is pushed; the stream has between 1 and n
entries when n >= 1 and is empty iff n = 0, so `empty()` is true exactly for an empty
input. -/
theorem small_tier_entry_count (hi : Nat → Nat) (d : Nat) (L B : List Nat) :
    (∀ st : cstate, (scan_pop st).fc_cnt = st.fc_cnt + (if st.vec_stack.pop.1 then 1 else 0)) ∧
    (∀ st : cstate, (flush_pop st).fc_cnt = st.fc_cnt + (if st.vec_stack.pop.1 then 1 else 0)) ∧
    (construct_first_child_and_lf_lcp hi d L B).1.length = (construct_state d L B).fc_cnt ∧
    (construct_first_child_and_lf_lcp hi d L B).1.length + dup_pushes d B 0 L (init L.length)
      = L.length ∧
    (L ≠ [] → 1 ≤ (construct_first_child_and_lf_lcp hi d L B).1.length) ∧
    (construct_first_child_and_lf_lcp hi d L B).1.length ≤ L.length ∧
    ((construct_first_child_and_lf_lcp hi d L B).1 = [] ↔ L = []) ∧
    ∀ cst : Option cst_type,
      ((_lcp_support_tree2.build hi d L B cst).empty = true ↔ L = []) := by
  have hs := stream_inv_construct d L B
  have hc := construct_entries d L B
  have hlen : (construct_first_child_and_lf_lcp hi d L B).1.length
      = (construct_state d L B).fc_cnt := hs.cnt
  have hpos : L ≠ [] → 1 ≤ (construct_first_child_and_lf_lcp hi d L B).1.length := by
    intro hne
    cases L with
    | nil => exact absurd rfl hne
    | cons x rest =>
      have h1 := dup_pushes_init_lt d B x rest (x :: rest).length
      simp only [List.length_cons] at hc h1 ⊢
      rw [hlen]
      omega
  have hiff : (construct_first_child_and_lf_lcp hi d L B).1 = [] ↔ L = [] := by
    constructor
    · intro h0
      by_contra hne
      have := hpos hne
      rw [h0] at this
      simp at this
    · intro h0
      subst h0
      rfl
  refine ⟨scan_pop_fc_cnt, flush_pop_fc_cnt, hlen, by rw [hlen]; exact hc, hpos,
    by rw [hlen]; omega, hiff, ?_⟩
  intro cst
  simp only [_lcp_support_tree2.empty, _lcp_support_tree2.build, List.isEmpty_iff]
  exact hiff

end sdsl
